import Mathlib

/-!
Verification of the FISE envelope transformation library.

The development shallowly embeds the TypeScript sources:
* `src/core/normalizeFiseRules.ts` (rule normalization and the brute-force
  `preExtractLength` search),
* `src/encryptFise.ts` (`encryptFise`, `decryptFise`, `fiseBinaryEncrypt`,
  `fiseBinaryDecrypt`),
* `src/rules/defaultRules.ts` (`defaultRules`, `defaultBinaryRules`),
* `src/core/xorBinaryCipher.ts`, `src/core/constants.ts`,
* the builder presets of `src/rules/builder.ts` (`hex`, `base62`, `base64`,
  `customChars`).

Sequences are embedded as `List Nat`: a JavaScript string is its list of
UTF-16 code units, a `Uint8Array` is its list of bytes.  JavaScript's `%`
on numbers is truncated remainder (`Int.tmod`), and `String.prototype.slice`
/ `TypedArray.prototype.slice` index arithmetic (negative indices count from
the end) is modelled by `jsSlice` below.  Randomness (salt value and salt
length) is an injected capability: the assembler takes them as arguments.
-/

/-! ## JavaScript primitives -/

/-- JS `slice` index normalization: a negative index counts from the end and
is clamped below by 0; a nonnegative index is clamped above by the length. -/
def jsBound (len : Nat) (i : Int) : Nat :=
  if i < 0 then ((len : Int) + i).toNat else min i.toNat len

/-- JS `s.slice(a, b)` for arbitrary (possibly negative) indices. -/
def jsSlice {α : Type} (l : List α) (a b : Int) : List α :=
  (l.drop (jsBound l.length a)).take (jsBound l.length b - jsBound l.length a)

/-- JS `s.slice(a)` (slice to the end). -/
def jsSliceFrom {α : Type} (l : List α) (a : Int) : List α :=
  l.drop (jsBound l.length a)

/-- JS `s.slice(a, b)` when both indices are nonnegative numbers, as the
sources use inside the search loops. -/
def sliceN {α : Type} (l : List α) (a b : Nat) : List α :=
  (l.drop a).take (b - a)

/-- JS `%` on integers: truncated remainder (sign of the dividend). -/
def jsRem (a b : Int) : Int := Int.tmod a b

/-- JS `Math.max(0, Math.min(x, hi))` landing on a list index. -/
def jsClamp (x : Int) (hi : Nat) : Nat := (max 0 (min x (hi : Int))).toNat

/-! ## Data model (`src/types.ts`) -/

/-- `FiseContext`: ambient parameters handed to every rule function.  The
`metadata` record is opaque to the core, which only threads it through; it
is embedded as an optional integer-valued bag. -/
structure FiseContext where
  timestamp : Option Int := none
  saltLength : Option Nat := none
  metadata : Option Int := none
deriving DecidableEq, Repr

/-- The empty context `{}`. -/
def emptyCtx : FiseContext := {}

/-- Salt length search range. -/
structure SaltRange where
  min : Nat
  max : Nat
deriving DecidableEq, Repr

/-- `FiseRules<T>`: the three required rule functions plus the optional
fields.  `decodeLength` returns `none` where the JS function returns `NaN`
(or throws a `RangeError`, as `defaultBinaryRules.decodeLength` does on a
short window). -/
structure FiseRules (α : Type) where
  offset : List α → FiseContext → Int
  encodeLength : Nat → FiseContext → List α
  decodeLength : List α → FiseContext → Option Int
  saltRange : Option SaltRange := none
  extractSalt : Option (List α → Nat → FiseContext → List α) := none
  stripSalt : Option (List α → Nat → FiseContext → List α) := none

/-- A symmetric cipher adapter (`FiseCipher` / `FiseBinaryCipher`). -/
structure FiseCipher (α : Type) where
  encrypt : List α → List α → List α
  decrypt : List α → List α → List α

/-- Encrypt-side options (`EncryptOptions`). -/
structure EncryptOptions where
  timestamp : Option Int := none
  metadata : Option Int := none

/-- Decrypt-side options (`DecryptOptions`). -/
structure DecryptOptions where
  timestamp : Option Int := none
  metadata : Option Int := none

/-- The two decode-path failures thrown by the sources: the
`"FISE: cannot infer salt length from envelope."` error of
`preExtractLength`, and the
`"FISE: cannot find encoded length at expected offset."` error of the
resolvers. -/
inductive FiseError where
  | cannotInferSaltLength
  | cannotFindEncodedLength
deriving DecidableEq, Repr

/-- Result record of `preExtractLength`. -/
structure PreExtractResult (α : Type) where
  saltLength : Nat
  encodedLength : List α
  withoutLen : List α
deriving DecidableEq, Repr

/-! ## Rule normalization (`src/core/normalizeFiseRules.ts`) -/

/-- `DEFAULT_SALT_RANGE` from `src/core/constants.ts`; also the literal
`{ min: 10, max: 99 }` fallback inside `normalizeFiseRules`. -/
def DEFAULT_SALT_RANGE : SaltRange := ⟨10, 99⟩

/-- `DEFAULT_OFFSET_PARAMS.MULTIPLIER` = 7, `.MODULO` = 11;
`DUMMY_CHAR = 'x'` (code unit 120). -/
def DUMMY_CHAR : Nat := 120

/-- Default tail-based salt extraction: `envelope.slice(-saltLen)`. -/
def defaultExtractSalt {α : Type} (envelope : List α) (saltLen : Nat)
    (_ctx : FiseContext) : List α :=
  jsSliceFrom envelope (-(saltLen : Int))

/-- Default tail-based salt stripping:
`envelope.slice(0, envelope.length - saltLen)`. -/
def defaultStripSalt {α : Type} (envelope : List α) (saltLen : Nat)
    (_ctx : FiseContext) : List α :=
  jsSlice envelope 0 ((envelope.length : Int) - (saltLen : Int))

/-- The salt range the normalizer settles on: `rules.saltRange ?? {10, 99}`. -/
def saltRangeOf {α : Type} (rules : FiseRules α) : SaltRange :=
  rules.saltRange.getD ⟨10, 99⟩

/-- The cached token width: `rules.encodeLength(10, {}).length` (the source
probes with the literal `10`). -/
def encodedLengthSizeOf {α : Type} (rules : FiseRules α) : Nat :=
  (rules.encodeLength 10 emptyCtx).length

/-- `stripSalt` after normalization: the user's function, else the default. -/
def stripSaltOf {α : Type} (rules : FiseRules α) :
    List α → Nat → FiseContext → List α :=
  rules.stripSalt.getD defaultStripSalt

/-- `extractSalt` after normalization. -/
def extractSaltOf {α : Type} (rules : FiseRules α) :
    List α → Nat → FiseContext → List α :=
  rules.extractSalt.getD defaultExtractSalt

/-- Body of the inner position loop of `preExtractLength`: at candidate salt
length `len` and position `i`, decode the token, reject `NaN` and mismatched
lengths, then recompute the offset on the candidate cipher text (context
extended with `saltLength: len`) and require it to equal `i`. -/
def scanPosition {α : Type} [DecidableEq α] (rules : FiseRules α)
    (withoutSalt : List α) (ctxBase : FiseContext) (len i : Nat) :
    Option (PreExtractResult α) :=
  match rules.decodeLength
      (sliceN withoutSalt i (i + encodedLengthSizeOf rules)) ctxBase with
  | none => none
  | some decodedLen =>
    if decodedLen = (len : Int) then
      if rules.offset
          (sliceN withoutSalt 0 i ++
            withoutSalt.drop (i + encodedLengthSizeOf rules))
          { ctxBase with saltLength := some len } = (i : Int) then
        some ⟨len,
          sliceN withoutSalt i (i + encodedLengthSizeOf rules), withoutSalt⟩
      else none
    else none

/-- The brute-force pre-extraction search of `normalizeFiseRules`: candidate
salt lengths ascending over `[saltRange.min, saltRange.max]`, candidate
positions ascending over `[0, withoutSalt.length - encodedLengthSize]`;
`none` models the thrown `"FISE: cannot infer salt length"` error. -/
def preExtractLength {α : Type} [DecidableEq α] (rules : FiseRules α)
    (envelope : List α) (ctxBase : FiseContext) :
    Option (PreExtractResult α) :=
  let range := saltRangeOf rules
  let size := encodedLengthSizeOf rules
  (List.range' range.min (range.max + 1 - range.min)).findSome? fun len =>
    let withoutSalt := stripSaltOf rules envelope len ctxBase
    if withoutSalt.length < size then none
    else
      (List.range (withoutSalt.length - size + 1)).findSome? fun i =>
        scanPosition rules withoutSalt ctxBase len i

/-- `NormalizedFiseRules`: all fields resolved plus the cached token width. -/
structure NormalizedFiseRules (α : Type) where
  encodedLengthSize : Nat
  offset : List α → FiseContext → Int
  encodeLength : Nat → FiseContext → List α
  decodeLength : List α → FiseContext → Option Int
  extractSalt : List α → Nat → FiseContext → List α
  stripSalt : List α → Nat → FiseContext → List α
  preExtractLength : List α → FiseContext → Option (PreExtractResult α)

/-- `normalizeFiseRules`: fill the optional fields with the defaults and
measure `encodedLengthSize` by probing `encodeLength(10, {})`. -/
def normalizeFiseRules {α : Type} [DecidableEq α] (rules : FiseRules α) :
    NormalizedFiseRules α where
  encodedLengthSize := encodedLengthSizeOf rules
  offset := rules.offset
  encodeLength := rules.encodeLength
  decodeLength := rules.decodeLength
  extractSalt := extractSaltOf rules
  stripSalt := stripSaltOf rules
  preExtractLength := preExtractLength rules

/-- Modelled from the spec: `normalizeFiseRulesBinary`
(`src/core/normalizeBinaryFiseRules.ts` is not part of the provided
sources; per spec §4.4 the binary variant runs the identical algorithm on
byte sequences, so the binary normalizer is the same normalization at byte
lists). -/
def normalizeFiseRulesBinary (rules : FiseRules Nat) : NormalizedFiseRules Nat :=
  normalizeFiseRules rules

deriving instance DecidableEq for Except

/-! ## Assembler and resolver (`src/encryptFise.ts`) -/

/-- Generic envelope assembler.  The randomly drawn salt length and salt are
injected as arguments (spec §9: randomness is an injected capability); given
them, this is the deterministic remainder of `encryptFise` /
`fiseBinaryEncrypt` (the binary assembler's typed-array copy produces the
same concatenation `prefix ++ encodedLen ++ suffix ++ salt`). -/
def encryptFiseG {α : Type} [DecidableEq α] (payload : List α)
    (cipher : FiseCipher α) (rules : FiseRules α) (options : EncryptOptions)
    (saltLen : Nat) (salt : List α) : List α :=
  let fullRules := normalizeFiseRules rules
  let ctx : FiseContext :=
    { timestamp := options.timestamp, saltLength := some saltLen,
      metadata := options.metadata }
  let cipherText := cipher.encrypt payload salt
  let encodedLen := fullRules.encodeLength saltLen ctx
  let offsetRaw := fullRules.offset cipherText ctx
  let offset := jsClamp offsetRaw cipherText.length
  (cipherText.take offset ++ encodedLen ++ cipherText.drop offset) ++ salt

/-- Generic envelope resolver: run `preExtractLength`, extract the salt,
recompute the expected offset on a placeholder sequence
(`DUMMY_CHAR.repeat(Math.max(1, cipherTextLen))` in string mode,
`new Uint8Array(Math.max(1, cipherTextLen))` in binary mode — the
placeholder element is the `dummy` argument), verify the token there, and
decrypt.  Errors model the two thrown exceptions. -/
def decryptFiseG {α : Type} [DecidableEq α] (dummy : α) (envelope : List α)
    (cipher : FiseCipher α) (rules : FiseRules α) (options : DecryptOptions) :
    Except FiseError (List α) :=
  let fullRules := normalizeFiseRules rules
  let ctx : FiseContext :=
    { timestamp := options.timestamp, saltLength := none,
      metadata := options.metadata }
  match fullRules.preExtractLength envelope ctx with
  | none => .error .cannotInferSaltLength
  | some r =>
    let salt := fullRules.extractSalt envelope r.saltLength
      { ctx with saltLength := some r.saltLength }
    let encodedSize := fullRules.encodedLengthSize
    let cipherTextLen : Int := (r.withoutLen.length : Int) - (encodedSize : Int)
    let expectedOffset := fullRules.offset
      (List.replicate (max 1 cipherTextLen).toNat dummy)
      { ctx with saltLength := some r.saltLength }
    let encodedPos := (max 0 (min expectedOffset cipherTextLen)).toNat
    if encodedPos + encodedSize > r.withoutLen.length ∨
        sliceN r.withoutLen encodedPos (encodedPos + encodedSize) ≠
          r.encodedLength then
      .error .cannotFindEncodedLength
    else
      let cipherText := sliceN r.withoutLen 0 encodedPos ++
        r.withoutLen.drop (encodedPos + encodedSize)
      .ok (cipher.decrypt cipherText salt)

/-- `encryptFise` (string mode; code-unit lists). -/
def encryptFise (plaintext : List Nat) (cipher : FiseCipher Nat)
    (rules : FiseRules Nat) (options : EncryptOptions)
    (saltLen : Nat) (salt : List Nat) : List Nat :=
  encryptFiseG plaintext cipher rules options saltLen salt

/-- `decryptFise` (string mode; the placeholder is `DUMMY_CHAR`). -/
def decryptFise (envelope : List Nat) (cipher : FiseCipher Nat)
    (rules : FiseRules Nat) (options : DecryptOptions) :
    Except FiseError (List Nat) :=
  decryptFiseG DUMMY_CHAR envelope cipher rules options

/-- `fiseBinaryEncrypt` (binary mode; byte lists). -/
def fiseBinaryEncrypt (binaryData : List Nat) (cipher : FiseCipher Nat)
    (rules : FiseRules Nat) (options : EncryptOptions)
    (saltLen : Nat) (salt : List Nat) : List Nat :=
  encryptFiseG binaryData cipher rules options saltLen salt

/-- `fiseBinaryDecrypt` (binary mode; the placeholder sequence
`new Uint8Array(n)` is zero-filled). -/
def fiseBinaryDecrypt (envelope : List Nat) (cipher : FiseCipher Nat)
    (rules : FiseRules Nat) (options : DecryptOptions) :
    Except FiseError (List Nat) :=
  decryptFiseG 0 envelope cipher rules options

/-! ## Ciphers -/

/-- Pointwise XOR against the cyclically repeated salt, with result elements
reduced modulo `modulus` (the width enforced by `Uint8Array` storage resp.
`String.fromCharCode`).  An empty salt yields `undefined`, coerced to `0`
by `^`; `List.getD _ 0` reproduces that. -/
def xorFold (modulus : Nat) (input salt : List Nat) : List Nat :=
  (List.range input.length).map fun i =>
    (input.getD i 0 ^^^ salt.getD (i % salt.length) 0) % modulus

/-- `xorBinaryCipher` from `src/core/xorBinaryCipher.ts`: byte-wise XOR,
identical in both directions. -/
def xorBinaryCipher : FiseCipher Nat where
  encrypt := fun plaintext salt => xorFold 256 plaintext salt
  decrypt := fun cipherText salt => xorFold 256 cipherText salt

/-- Modelled from the spec: `xorCipher`, the string-mode XOR cipher
(`src/core/xorCipher.ts` is not part of the provided sources; spec §1
specifies the default cipher as a symmetric char-wise XOR keyed by the
salt).  Code units are XORed cyclically against the salt's code units. -/
def xorCipher : FiseCipher Nat where
  encrypt := fun plaintext salt => xorFold 65536 plaintext salt
  decrypt := fun cipherText salt => xorFold 65536 cipherText salt

/-! ## Number formatting and parsing -/

/-- Most-significant-first base-`b` digits by the JS `do { ... } while (n > 0)`
loop: always at least one digit.  The loop diverges for `b ≤ 1`; every
caller in the sources has `b ≥ 10` (the `customChars` constructor throws
below 10), so that case is mapped to `[]`.  A fuel counter makes the
recursion structural. -/
def baseDigitsAux (b : Nat) : Nat → Nat → List Nat
  | 0, _n => []
  | fuel + 1, n =>
    if n < b then [n] else baseDigitsAux b fuel (n / b) ++ [n % b]

/-- Entry point of the digit loop; `n + 1` units of fuel always suffice,
since each division by `b ≥ 2` strictly shrinks the argument. -/
def baseDigits (b n : Nat) : List Nat :=
  if b ≤ 1 then [] else baseDigitsAux b (n + 1) n

/-- JS `String.prototype.padStart(target, pad)` for single-element pads. -/
def padStartList (l : List Nat) (target : Nat) (pad : Nat) : List Nat :=
  List.replicate (target - l.length) pad ++ l

/-- Code unit of digit `d` as produced by `Number.prototype.toString(radix)`:
`0-9` then lowercase `a-z`. -/
def digitCode (d : Nat) : Nat :=
  if d < 10 then 48 + d else 87 + d

/-- `n.toString(radix)` for a nonnegative integer `n`. -/
def natToStringRadix (radix n : Nat) : List Nat :=
  (baseDigits radix n).map digitCode

/-- Numeric value of a code unit as a digit, as `parseInt` reads it:
`0-9`, `a-z`, `A-Z` (case-insensitive). -/
def digitValOfCode (c : Nat) : Option Nat :=
  if 48 ≤ c ∧ c ≤ 57 then some (c - 48)
  else if 97 ≤ c ∧ c ≤ 122 then some (c - 87)
  else if 65 ≤ c ∧ c ≤ 90 then some (c - 55)
  else none

/-- The JS `StrWhiteSpace` code units skipped by `parseInt`. -/
def jsWhitespace : List Nat :=
  [9, 10, 11, 12, 13, 32, 160, 5760, 8192, 8193, 8194, 8195, 8196, 8197,
   8198, 8199, 8200, 8201, 8202, 8232, 8233, 8239, 8287, 12288, 65279]

/-- Whether code unit `c` is a digit of value `< radix`. -/
def isRadixDigit (radix c : Nat) : Bool :=
  match digitValOfCode c with
  | some d => d < radix
  | none => false

/-- JS `parseInt(s, radix)` for a fixed radix `2 ≤ radix ≤ 36`: skip leading
whitespace, read an optional sign, strip a `0x`/`0X` prefix when the radix
is 16, then parse the longest prefix of valid digits; `none` models `NaN`. -/
def parseIntRadix (radix : Nat) (s : List Nat) : Option Int :=
  let s1 := s.dropWhile (fun c => c ∈ jsWhitespace)
  let signAndRest : Int × List Nat :=
    match s1 with
    | 43 :: rest => (1, rest)
    | 45 :: rest => (-1, rest)
    | _ => (1, s1)
  let s2 := signAndRest.2
  let s3 :=
    if radix = 16 then
      match s2 with
      | 48 :: 120 :: rest => rest
      | 48 :: 88 :: rest => rest
      | _ => s2
    else s2
  let digits := (s3.takeWhile (isRadixDigit radix)).map
    (fun c => (digitValOfCode c).getD 0)
  if digits.isEmpty then none
  else some (signAndRest.1 *
    ((digits.foldl (fun acc d => acc * radix + d) 0 : Nat) : Int))

/-! ## Rule sets (`src/rules/defaultRules.ts`, builder presets) -/

/-- The shared default offset formula
`(len * 7 + (t % 11)) % len` with `len = cipherText.length || 1`. -/
def defaultOffsetFn (cipherText : List Nat) (ctx : FiseContext) : Int :=
  let t := ctx.timestamp.getD 0
  let len : Nat := if cipherText.length = 0 then 1 else cipherText.length
  jsRem ((len : Int) * 7 + jsRem t 11) (len : Int)

/-- `defaultRules` (string mode): timestamp-based offset, base-36 length
codec `len.toString(36).padStart(2, "0")` / `parseInt(encoded, 36)`. -/
def defaultRules : FiseRules Nat where
  offset := defaultOffsetFn
  encodeLength := fun len _ctx => padStartList (natToStringRadix 36 len) 2 48
  decodeLength := fun encoded _ctx => parseIntRadix 36 encoded

/-- `defaultBinaryRules`: same offset; the length is stored as a 2-byte
big-endian unsigned integer (`DataView.setUint16`/`getUint16`); decoding a
window shorter than 2 bytes throws a `RangeError` (modelled as `none`). -/
def defaultBinaryRules : FiseRules Nat where
  offset := defaultOffsetFn
  encodeLength := fun len _ctx => [len % 65536 / 256, len % 256]
  decodeLength := fun encoded _ctx =>
    if encoded.length < 2 then none
    else some ((encoded.getD 0 0 * 256 + encoded.getD 1 0 : Nat) : Int)

/-- `FiseBuilder.hex()`: hex length codec, default offset. -/
def hexRules : FiseRules Nat where
  offset := defaultOffsetFn
  encodeLength := fun len _ctx => padStartList (natToStringRadix 16 len) 2 48
  decodeLength := fun encoded _ctx => parseIntRadix 16 encoded
  saltRange := some ⟨10, 99⟩

/-- Positional base-`alphabet.length` decoding with `indexOf`; any code unit
outside the alphabet yields `NaN` (the JS loop returns `NaN` on the first
`indexOf` miss, and every later iteration keeps it `NaN`, so an
early-exit fold is equivalent). -/
def decodeByAlphabet (alphabet : List Nat) : List Nat → Nat → Option Nat
  | [], acc => some acc
  | c :: rest, acc =>
    if c ∈ alphabet then
      decodeByAlphabet alphabet rest (acc * alphabet.length + alphabet.indexOf c)
    else none

/-- `FiseBuilder.base62()`'s alphabet `0-9A-Za-z`. -/
def base62Alphabet : List Nat :=
  (List.range 10).map (48 + ·) ++ (List.range 26).map (65 + ·) ++
    (List.range 26).map (97 + ·)

/-- `FiseBuilder.base62()`: do-while base-62 encoding padded with the
alphabet's `"0"`, decoded by `indexOf`. -/
def base62Rules : FiseRules Nat where
  offset := defaultOffsetFn
  encodeLength := fun len _ctx =>
    padStartList ((baseDigits 62 len).map (fun d => base62Alphabet.getD d 0)) 2 48
  decodeLength := fun encoded _ctx =>
    (decodeByAlphabet base62Alphabet encoded 0).map (fun n => (n : Int))
  saltRange := some ⟨10, 99⟩

/-- `FiseBuilder.base64()`'s alphabet `A-Za-z0-9+/`. -/
def base64Alphabet : List Nat :=
  (List.range 26).map (65 + ·) ++ (List.range 26).map (97 + ·) ++
    (List.range 10).map (48 + ·) ++ [43, 47]

/-- `FiseBuilder.base64()`: base-64-charset encoding (zero encodes to the
doubled pad character), padded with `base64Chars[0] = 'A'`. -/
def base64Rules : FiseRules Nat where
  offset := defaultOffsetFn
  encodeLength := fun len _ctx =>
    if len = 0 then [65, 65]
    else padStartList ((baseDigits 64 len).map (fun d => base64Alphabet.getD d 0)) 2 65
  decodeLength := fun encoded _ctx =>
    (decodeByAlphabet base64Alphabet encoded 0).map (fun n => (n : Int))
  saltRange := some ⟨10, 99⟩

/-- `FiseBuilder.customChars(alphabet)`: base-`alphabet.length` encoding over
a caller-supplied alphabet (the constructor only checks
`alphabet.length ≥ 10`), padded with `alphabet[0]`. -/
def customCharsRules (alphabet : List Nat) : FiseRules Nat where
  offset := defaultOffsetFn
  encodeLength := fun len _ctx =>
    if len = 0 then [alphabet.getD 0 0, alphabet.getD 0 0]
    else padStartList ((baseDigits alphabet.length len).map
      (fun d => alphabet.getD d 0)) 2 (alphabet.getD 0 0)
  decodeLength := fun encoded _ctx =>
    (decodeByAlphabet alphabet encoded 0).map (fun n => (n : Int))
  saltRange := some ⟨10, 99⟩

/-! ## Structural consistency: what the pre-extraction search accepts -/

/-- The candidate carrier at salt-length guess `len`:
`withoutSalt = stripSalt(envelope, len, ctxBase)`. -/
def wsAt {α : Type} (rules : FiseRules α) (envelope : List α)
    (ctxBase : FiseContext) (len : Nat) : List α :=
  stripSaltOf rules envelope len ctxBase

/-- The token window of width `encodedLengthSize` at position `i`. -/
def tokenAt {α : Type} (rules : FiseRules α) (envelope : List α)
    (ctxBase : FiseContext) (len i : Nat) : List α :=
  sliceN (wsAt rules envelope ctxBase len) i (i + encodedLengthSizeOf rules)

/-- The candidate cipher text: the carrier with the token window removed. -/
def candidateAt {α : Type} (rules : FiseRules α) (envelope : List α)
    (ctxBase : FiseContext) (len i : Nat) : List α :=
  sliceN (wsAt rules envelope ctxBase len) 0 i ++
    (wsAt rules envelope ctxBase len).drop (i + encodedLengthSizeOf rules)

/-- A pair `(len, i)` is structurally consistent when it lies in the searched
rectangle (salt range, position range), the token at `i` decodes to a valid
number equal to `len`, and the offset recomputed on the candidate cipher
text with `saltLength := len` equals `i`.  These are exactly the conditions
the brute-force search accepts. -/
def consistentPair {α : Type} (rules : FiseRules α) (envelope : List α)
    (ctxBase : FiseContext) (len i : Nat) : Prop :=
  (saltRangeOf rules).min ≤ len ∧ len ≤ (saltRangeOf rules).max ∧
  encodedLengthSizeOf rules ≤ (wsAt rules envelope ctxBase len).length ∧
  i + encodedLengthSizeOf rules ≤ (wsAt rules envelope ctxBase len).length ∧
  rules.decodeLength (tokenAt rules envelope ctxBase len i) ctxBase =
    some (len : Int) ∧
  rules.offset (candidateAt rules envelope ctxBase len i)
    { ctxBase with saltLength := some len } = (i : Int)

instance {α : Type} (rules : FiseRules α) [DecidableEq α] (envelope : List α)
    (ctxBase : FiseContext) (len i : Nat) :
    Decidable (consistentPair rules envelope ctxBase len i) := by
  unfold consistentPair
  exact inferInstance

/-- The inner loop at a fixed salt-length guess, including the
`withoutSalt.length < encodedLengthSize` skip. -/
def innerScan {α : Type} [DecidableEq α] (rules : FiseRules α)
    (envelope : List α) (ctxBase : FiseContext) (len : Nat) :
    Option (PreExtractResult α) :=
  let size := encodedLengthSizeOf rules
  let withoutSalt := wsAt rules envelope ctxBase len
  if withoutSalt.length < size then none
  else
    (List.range (withoutSalt.length - size + 1)).findSome? fun i =>
      scanPosition rules withoutSalt ctxBase len i

/-- A rule set with a custom salt range whose minimum is 20 and whose
encoded-length width depends on the length argument, used to separate the
probe value the normalizer actually uses (the literal 10) from the range
minimum the spec claims. -/
def c3Rules : FiseRules Nat where
  offset := fun _ _ => 0
  encodeLength := fun len _ => List.replicate len 97
  decodeLength := fun _ _ => none
  saltRange := some ⟨20, 30⟩

/-- A rule set whose raw offset always exceeds the cipher-text length. -/
def c10Rules : FiseRules Nat where
  offset := fun ct _ => (ct.length : Int) + 1
  encodeLength := fun _ _ => [0, 0]
  decodeLength := fun _ _ => some 0

/-- Modelled from the spec: the fast decode path of §4.3.  Instead of the
O(range × length) double loop, for each candidate salt length compute
`expectedOffset` once from the known candidate cipher-text length using a
placeholder sequence of that length, then verify the encoded-length token
at that single position (position validity plus decode-to-`len`). -/
def fastPathPreExtract {α : Type} [DecidableEq α] (dummy : α)
    (rules : FiseRules α) (envelope : List α) (ctxBase : FiseContext) :
    Option (PreExtractResult α) :=
  (List.range' (saltRangeOf rules).min
    ((saltRangeOf rules).max + 1 - (saltRangeOf rules).min)).findSome?
    fun len =>
      if (stripSaltOf rules envelope len ctxBase).length <
          encodedLengthSizeOf rules then none
      else
        if 0 ≤ rules.offset
              (List.replicate ((stripSaltOf rules envelope len ctxBase).length
                - encodedLengthSizeOf rules) dummy)
              { ctxBase with saltLength := some len } ∧
            (rules.offset
              (List.replicate ((stripSaltOf rules envelope len ctxBase).length
                - encodedLengthSizeOf rules) dummy)
              { ctxBase with saltLength := some len }).toNat +
              encodedLengthSizeOf rules ≤
              (stripSaltOf rules envelope len ctxBase).length then
          match rules.decodeLength
              (sliceN (stripSaltOf rules envelope len ctxBase)
                (rules.offset
                  (List.replicate
                    ((stripSaltOf rules envelope len ctxBase).length -
                      encodedLengthSizeOf rules) dummy)
                  { ctxBase with saltLength := some len }).toNat
                ((rules.offset
                  (List.replicate
                    ((stripSaltOf rules envelope len ctxBase).length -
                      encodedLengthSizeOf rules) dummy)
                  { ctxBase with saltLength := some len }).toNat +
                  encodedLengthSizeOf rules)) ctxBase with
          | none => none
          | some d =>
            if d = (len : Int) then
              some ⟨len,
                sliceN (stripSaltOf rules envelope len ctxBase)
                  (rules.offset
                    (List.replicate
                      ((stripSaltOf rules envelope len ctxBase).length -
                        encodedLengthSizeOf rules) dummy)
                    { ctxBase with saltLength := some len }).toNat
                  ((rules.offset
                    (List.replicate
                      ((stripSaltOf rules envelope len ctxBase).length -
                        encodedLengthSizeOf rules) dummy)
                    { ctxBase with saltLength := some len }).toNat +
                    encodedLengthSizeOf rules),
                stripSaltOf rules envelope len ctxBase⟩
            else none
        else none

/-! ## Basic lemmas about the JS primitives -/

theorem jsClamp_zero (n : Nat) : jsClamp 0 n = 0 := by
  simp [jsClamp]

theorem jsClamp_of_nonneg_le {x : Int} {n : Nat} (h0 : 0 ≤ x)
    (h : x ≤ (n : Int)) : jsClamp x n = x.toNat := by
  simp [jsClamp]
  omega

theorem jsClamp_of_gt {x : Int} {n : Nat} (h : (n : Int) < x) :
    jsClamp x n = n := by
  simp [jsClamp]
  omega

theorem sliceN_zero {α : Type} (l : List α) (n : Nat) :
    sliceN l 0 n = l.take n := by
  simp [sliceN]

theorem sliceN_zero_zero {α : Type} (l : List α) : sliceN l 0 0 = [] := by
  simp [sliceN]

theorem sliceN_window {α : Type} (l : List α) (i k : Nat) :
    sliceN l i (i + k) = (l.drop i).take k := by
  simp [sliceN]

theorem defaultStripSalt_eq_take {α : Type} (l : List α) (k : Nat)
    (ctx : FiseContext) (h : k ≤ l.length) :
    defaultStripSalt l k ctx = l.take (l.length - k) := by
  unfold defaultStripSalt jsSlice jsBound
  have h1 : ¬ ((0 : Int) < 0) := by omega
  have h2 : ¬ ((l.length : Int) - (k : Int) < 0) := by omega
  simp only [if_neg h1, if_neg h2]
  have h3 : ((l.length : Int) - (k : Int)).toNat = l.length - k := by omega
  simp [h3, min_eq_left (Nat.sub_le _ _)]

theorem defaultExtractSalt_eq_drop {α : Type} (l : List α) (k : Nat)
    (ctx : FiseContext) (hk : 1 ≤ k) (h : k ≤ l.length) :
    defaultExtractSalt l k ctx = l.drop (l.length - k) := by
  unfold defaultExtractSalt jsSliceFrom jsBound
  have h1 : (-(k : Int) < 0) := by omega
  simp only [if_pos h1]
  have h3 : ((l.length : Int) + -(k : Int)).toNat = l.length - k := by omega
  simp [h3]

theorem take_append_left {α : Type} (l1 l2 : List α) {n : Nat}
    (h : l1.length = n) : (l1 ++ l2).take n = l1 :=
  List.take_left' h

theorem drop_append_left {α : Type} (l1 l2 : List α) {n : Nat}
    (h : l1.length = n) : (l1 ++ l2).drop n = l2 :=
  List.drop_left' h

/-! ## Lemmas about `Int.tmod` (JS `%`) -/

theorem jsRem_ofNat (m n : Nat) :
    jsRem ((m : Nat) : Int) ((n : Nat) : Int) = ((m % n : Nat) : Int) := rfl

theorem jsRem_one (a : Int) : jsRem a 1 = 0 := Int.tmod_one a

theorem jsRem_bounds (t : Int) (b : Nat) (hb : 0 < b) :
    -(b : Int) < jsRem t (b : Int) ∧ jsRem t (b : Int) < (b : Int) := by
  unfold jsRem
  cases t with
  | ofNat m =>
    show -(b : Int) < ((m % b : Nat) : Int) ∧ ((m % b : Nat) : Int) < (b : Int)
    have := Nat.mod_lt m hb
    omega
  | negSucc m =>
    show -(b : Int) < -((m.succ % b : Nat) : Int) ∧
      -((m.succ % b : Nat) : Int) < (b : Int)
    have := Nat.mod_lt m.succ hb
    omega

theorem jsRem_nonpos_of_neg {t : Int} (b : Nat) (h : t ≤ 0) :
    jsRem t (b : Int) ≤ 0 := by
  unfold jsRem
  cases t with
  | ofNat m =>
    simp only [Int.ofNat_eq_coe] at h
    have hm : m = 0 := by omega
    subst hm
    show ((0 % b : Nat) : Int) ≤ 0
    simp
  | negSucc m =>
    show -((m.succ % b : Nat) : Int) ≤ 0
    omega

theorem jsRem_nonneg_bounds {a : Int} {b : Nat} (ha : 0 ≤ a) (hb : 0 < b) :
    0 ≤ jsRem a (b : Int) ∧ jsRem a (b : Int) < (b : Int) := by
  obtain ⟨m, rfl⟩ : ∃ m : Nat, a = (m : Int) := ⟨a.toNat, by omega⟩
  rw [jsRem_ofNat]
  have := Nat.mod_lt m hb
  omega

theorem jsRem_mul_self (L : Nat) :
    jsRem ((L : Int) * 7) (L : Int) = 0 := by
  have : ((L : Int) * 7) = ((L * 7 : Nat) : Int) := by push_cast; ring
  rw [this, jsRem_ofNat]
  simp [Nat.mul_mod_right]

/-! ## Lemmas about `List.findSome?` over ascending ranges -/

theorem findSome?_all_none {α β : Type} {f : α → Option β} {l : List α}
    (h : ∀ a ∈ l, f a = none) : l.findSome? f = none :=
  List.findSome?_eq_none_iff.mpr h

theorem findSome?_range'_first {β : Type} {f : Nat → Option β} {b : β} :
    ∀ (n s : Nat), (List.range' s n).findSome? f = some b ↔
      ∃ k, s ≤ k ∧ k < s + n ∧ f k = some b ∧
        ∀ j, s ≤ j → j < k → f j = none := by
  intro n
  induction n with
  | zero =>
    intro s
    simp only [List.range', List.findSome?]
    constructor
    · intro h
      cases h
    · rintro ⟨k, h1, h2, -, -⟩
      omega
  | succ n ih =>
    intro s
    rw [List.range'_succ, List.findSome?_cons]
    cases hfs : f s with
    | some v =>
      simp only []
      constructor
      · intro h
        cases h
        exact ⟨s, le_refl s, by omega, hfs, fun j h1 h2 => by omega⟩
      · rintro ⟨k, h1, h2, h3, h4⟩
        rcases Nat.eq_or_lt_of_le h1 with rfl | hlt
        · rw [hfs] at h3
          exact h3
        · rw [h4 s (le_refl s) hlt] at hfs
          cases hfs
    | none =>
      simp only []
      rw [ih (s + 1)]
      constructor
      · rintro ⟨k, h1, h2, h3, h4⟩
        refine ⟨k, by omega, by omega, h3, fun j hj1 hj2 => ?_⟩
        rcases Nat.eq_or_lt_of_le hj1 with rfl | hlt
        · exact hfs
        · exact h4 j hlt hj2
      · rintro ⟨k, h1, h2, h3, h4⟩
        have hks : k ≠ s := by
          intro h
          subst h
          rw [hfs] at h3
          cases h3
        exact ⟨k, by omega, by omega, h3, fun j hj1 hj2 => h4 j (by omega) hj2⟩

theorem findSome?_range_first {β : Type} {f : Nat → Option β} {b : β}
    {n : Nat} : (List.range n).findSome? f = some b ↔
      ∃ k, k < n ∧ f k = some b ∧ ∀ j, j < k → f j = none := by
  rw [List.range_eq_range', findSome?_range'_first n 0]
  constructor
  · rintro ⟨k, -, h2, h3, h4⟩
    exact ⟨k, by omega, h3, fun j hj => h4 j (by omega) hj⟩
  · rintro ⟨k, h1, h2, h3⟩
    exact ⟨k, by omega, by omega, h2, fun j _ hj => h3 j hj⟩

/-! ## Facts about the default offset formula -/

theorem defaultOffsetFn_eq (ct : List Nat) (ctx : FiseContext) :
    defaultOffsetFn ct ctx =
      jsRem (((if ct.length = 0 then 1 else ct.length : Nat) : Int) * 7 +
        jsRem (ctx.timestamp.getD 0) 11)
        ((if ct.length = 0 then 1 else ct.length : Nat) : Int) := rfl

theorem defaultOffsetFn_length_only {ct1 ct2 : List Nat} {ctx : FiseContext}
    (h : ct1.length = ct2.length) :
    defaultOffsetFn ct1 ctx = defaultOffsetFn ct2 ctx := by
  unfold defaultOffsetFn
  rw [h]

theorem defaultOffsetFn_zero {ct : List Nat} {ctx : FiseContext}
    (h : jsRem (ctx.timestamp.getD 0) 11 = 0) : defaultOffsetFn ct ctx = 0 := by
  rw [defaultOffsetFn_eq, h, Int.add_zero]
  exact jsRem_mul_self _

theorem defaultOffsetFn_bounds (ct : List Nat) (ctx : FiseContext) :
    0 ≤ defaultOffsetFn ct ctx ∧
      defaultOffsetFn ct ctx <
        ((if ct.length = 0 then 1 else ct.length : Nat) : Int) := by
  rw [defaultOffsetFn_eq]
  set L : Nat := if ct.length = 0 then 1 else ct.length with hL
  have hL1 : 1 ≤ L := by
    rw [hL]
    split <;> omega
  have h11 : ((11 : Nat) : Int) = (11 : Int) := by norm_num
  by_cases hL2 : L = 1
  · rw [hL2]
    push_cast
    rw [jsRem_one]
    omega
  · have hr := jsRem_bounds (ctx.timestamp.getD 0) 11 (by omega)
    rw [h11] at hr
    have hpos : 0 ≤ (L : Int) * 7 + jsRem (ctx.timestamp.getD 0) 11 := by
      have h2L : (2 : Int) ≤ (L : Int) := by omega
      nlinarith [hr.1, hr.2]
    exact jsRem_nonneg_bounds hpos (by omega)

theorem preExtractLength_eq_findSome {α : Type} [DecidableEq α]
    (rules : FiseRules α) (envelope : List α) (ctxBase : FiseContext) :
    preExtractLength rules envelope ctxBase =
      (List.range' (saltRangeOf rules).min
        ((saltRangeOf rules).max + 1 - (saltRangeOf rules).min)).findSome?
        (innerScan rules envelope ctxBase) := rfl

theorem scanPosition_eq_some_iff {α : Type} [DecidableEq α]
    {rules : FiseRules α} {envelope : List α} {ctxBase : FiseContext}
    {len i : Nat} {r : PreExtractResult α} :
    scanPosition rules (wsAt rules envelope ctxBase len) ctxBase len i =
        some r ↔
      rules.decodeLength (tokenAt rules envelope ctxBase len i) ctxBase =
          some (len : Int) ∧
      rules.offset (candidateAt rules envelope ctxBase len i)
          { ctxBase with saltLength := some len } = (i : Int) ∧
      r = ⟨len, tokenAt rules envelope ctxBase len i,
        wsAt rules envelope ctxBase len⟩ := by
  unfold scanPosition
  rw [show sliceN (wsAt rules envelope ctxBase len) i
      (i + encodedLengthSizeOf rules) =
      tokenAt rules envelope ctxBase len i from rfl]
  rw [show sliceN (wsAt rules envelope ctxBase len) 0 i ++
      (wsAt rules envelope ctxBase len).drop
        (i + encodedLengthSizeOf rules) =
      candidateAt rules envelope ctxBase len i from rfl]
  cases hdec : rules.decodeLength (tokenAt rules envelope ctxBase len i)
      ctxBase with
  | none =>
    simp [hdec]
  | some d =>
    by_cases hd : d = (len : Int)
    · subst hd
      by_cases hoff : rules.offset (candidateAt rules envelope ctxBase len i)
          { ctxBase with saltLength := some len } = (i : Int)
      · simp only [hdec, hoff, eq_self_iff_true, if_true, Option.some.injEq,
          true_and, and_true]
        exact eq_comm
      · simp only [if_pos rfl, if_neg hoff]
        constructor
        · intro h
          cases h
        · rintro ⟨-, h2, -⟩
          exact absurd h2 hoff
    · simp only [if_neg hd]
      constructor
      · intro h
        cases h
      · rintro ⟨h1, -, -⟩
        rw [Option.some.injEq] at h1
        exact absurd h1 hd

theorem scanPosition_eq_none_iff {α : Type} [DecidableEq α]
    {rules : FiseRules α} {envelope : List α} {ctxBase : FiseContext}
    {len i : Nat} :
    scanPosition rules (wsAt rules envelope ctxBase len) ctxBase len i =
        none ↔
      ¬ (rules.decodeLength (tokenAt rules envelope ctxBase len i) ctxBase =
          some (len : Int) ∧
        rules.offset (candidateAt rules envelope ctxBase len i)
          { ctxBase with saltLength := some len } = (i : Int)) := by
  constructor
  · intro h hc
    have := @scanPosition_eq_some_iff α _ rules envelope ctxBase len i
      ⟨len, tokenAt rules envelope ctxBase len i,
        wsAt rules envelope ctxBase len⟩
    rw [this.mpr ⟨hc.1, hc.2, rfl⟩] at h
    cases h
  · intro h
    cases hs : scanPosition rules (wsAt rules envelope ctxBase len) ctxBase
        len i with
    | none => rfl
    | some r =>
      obtain ⟨h1, h2, -⟩ := scanPosition_eq_some_iff.mp hs
      exact absurd ⟨h1, h2⟩ h

theorem innerScan_eq_none_iff {α : Type} [DecidableEq α]
    {rules : FiseRules α} {envelope : List α} {ctxBase : FiseContext}
    {len : Nat} :
    innerScan rules envelope ctxBase len = none ↔
      ∀ i, ¬ (encodedLengthSizeOf rules ≤
          (wsAt rules envelope ctxBase len).length ∧
        i + encodedLengthSizeOf rules ≤
          (wsAt rules envelope ctxBase len).length ∧
        rules.decodeLength (tokenAt rules envelope ctxBase len i) ctxBase =
          some (len : Int) ∧
        rules.offset (candidateAt rules envelope ctxBase len i)
          { ctxBase with saltLength := some len } = (i : Int)) := by
  unfold innerScan
  by_cases hlt : (wsAt rules envelope ctxBase len).length <
      encodedLengthSizeOf rules
  · simp only [if_pos hlt]
    constructor
    · intro _ i hc
      omega
    · intro _
      trivial
  · simp only [if_neg hlt]
    push_neg at hlt
    constructor
    · intro h i hc
      have hi : i < (wsAt rules envelope ctxBase len).length -
          encodedLengthSizeOf rules + 1 := by omega
      have := List.findSome?_eq_none_iff.mp h i (List.mem_range.mpr hi)
      exact absurd ⟨hc.2.2.1, hc.2.2.2⟩ (scanPosition_eq_none_iff.mp this)
    · intro h
      apply findSome?_all_none
      intro i hi
      rw [List.mem_range] at hi
      rw [scanPosition_eq_none_iff]
      intro hc
      exact h i ⟨hlt, by omega, hc.1, hc.2⟩

theorem innerScan_consistent_iff {α : Type} [DecidableEq α]
    {rules : FiseRules α} {envelope : List α} {ctxBase : FiseContext}
    {len : Nat}
    (hmin : (saltRangeOf rules).min ≤ len)
    (hmax : len ≤ (saltRangeOf rules).max) :
    innerScan rules envelope ctxBase len = none ↔
      ∀ i, ¬ consistentPair rules envelope ctxBase len i := by
  rw [innerScan_eq_none_iff]
  unfold consistentPair
  constructor
  · intro h i hc
    exact h i ⟨hc.2.2.1, hc.2.2.2.1, hc.2.2.2.2.1, hc.2.2.2.2.2⟩
  · intro h i hc
    exact h i ⟨hmin, hmax, hc.1, hc.2.1, hc.2.2.1, hc.2.2.2⟩

theorem innerScan_eq_some_iff {α : Type} [DecidableEq α]
    {rules : FiseRules α} {envelope : List α} {ctxBase : FiseContext}
    {len : Nat} {r : PreExtractResult α} :
    innerScan rules envelope ctxBase len = some r ↔
      ∃ i, encodedLengthSizeOf rules ≤
          (wsAt rules envelope ctxBase len).length ∧
        i + encodedLengthSizeOf rules ≤
          (wsAt rules envelope ctxBase len).length ∧
        rules.decodeLength (tokenAt rules envelope ctxBase len i) ctxBase =
          some (len : Int) ∧
        rules.offset (candidateAt rules envelope ctxBase len i)
          { ctxBase with saltLength := some len } = (i : Int) ∧
        r = ⟨len, tokenAt rules envelope ctxBase len i,
          wsAt rules envelope ctxBase len⟩ ∧
        (∀ j, j < i →
          ¬ (rules.decodeLength (tokenAt rules envelope ctxBase len j)
              ctxBase = some (len : Int) ∧
            rules.offset (candidateAt rules envelope ctxBase len j)
              { ctxBase with saltLength := some len } = (j : Int))) := by
  unfold innerScan
  by_cases hlt : (wsAt rules envelope ctxBase len).length <
      encodedLengthSizeOf rules
  · simp only [if_pos hlt]
    constructor
    · intro h
      cases h
    · rintro ⟨i, h1, -⟩
      omega
  · simp only [if_neg hlt]
    push_neg at hlt
    rw [findSome?_range_first]
    constructor
    · rintro ⟨k, hk, hsome, hprev⟩
      obtain ⟨h1, h2, h3⟩ := scanPosition_eq_some_iff.mp hsome
      refine ⟨k, hlt, by omega, h1, h2, h3, fun j hj hc => ?_⟩
      exact absurd ⟨hc.1, hc.2⟩ (scanPosition_eq_none_iff.mp (hprev j hj))
    · rintro ⟨i, h1, h2, h3, h4, h5, h6⟩
      refine ⟨i, by omega, scanPosition_eq_some_iff.mpr ⟨h3, h4, h5⟩,
        fun j hj => ?_⟩
      rw [scanPosition_eq_none_iff]
      intro hc
      exact h6 j hj ⟨hc.1, hc.2⟩

/-- Failure characterization of the search: `preExtractLength` returns
`none` (the `"cannot infer salt length"` error) precisely when no pair in
the searched rectangle is structurally consistent. -/
theorem preExtractLength_eq_none_iff {α : Type} [DecidableEq α]
    {rules : FiseRules α} {envelope : List α} {ctxBase : FiseContext} :
    preExtractLength rules envelope ctxBase = none ↔
      ∀ len i, ¬ consistentPair rules envelope ctxBase len i := by
  rw [preExtractLength_eq_findSome]
  constructor
  · intro h len i hc
    have hmem : len ∈ List.range' (saltRangeOf rules).min
        ((saltRangeOf rules).max + 1 - (saltRangeOf rules).min) := by
      rw [List.mem_range'_1]
      obtain ⟨h1, h2, -⟩ := hc
      omega
    have hnone := List.findSome?_eq_none_iff.mp h len hmem
    exact (innerScan_consistent_iff hc.1 hc.2.1).mp hnone i hc
  · intro h
    apply findSome?_all_none
    intro len hmem
    rw [List.mem_range'_1] at hmem
    exact (innerScan_consistent_iff (by omega) (by omega)).mpr (h len)

/-- Success characterization of the search: `preExtractLength` returns a
result exactly when some structurally consistent pair exists, and the
result is built from the lexicographically first one (ascending salt
length, then ascending position). -/
theorem preExtractLength_eq_some_iff {α : Type} [DecidableEq α]
    {rules : FiseRules α} {envelope : List α} {ctxBase : FiseContext}
    {r : PreExtractResult α} :
    preExtractLength rules envelope ctxBase = some r ↔
      ∃ len i, consistentPair rules envelope ctxBase len i ∧
        r = ⟨len, tokenAt rules envelope ctxBase len i,
          wsAt rules envelope ctxBase len⟩ ∧
        ∀ len' i', consistentPair rules envelope ctxBase len' i' →
          len < len' ∨ (len = len' ∧ i ≤ i') := by
  rw [preExtractLength_eq_findSome]
  rw [findSome?_range'_first
    ((saltRangeOf rules).max + 1 - (saltRangeOf rules).min)
    (saltRangeOf rules).min]
  constructor
  · rintro ⟨len, hge, hlt, hsome, hprev⟩
    obtain ⟨i, h1, h2, h3, h4, h5, h6⟩ := innerScan_eq_some_iff.mp hsome
    refine ⟨len, i, ⟨hge, by omega, h1, h2, h3, h4⟩, h5,
      fun len' i' hc' => ?_⟩
    rcases Nat.lt_trichotomy len len' with hlt' | rfl | hgt'
    · exact Or.inl hlt'
    · refine Or.inr ⟨rfl, ?_⟩
      by_contra hii
      push_neg at hii
      exact h6 i' hii ⟨hc'.2.2.2.2.1, hc'.2.2.2.2.2⟩
    · exfalso
      have hnone : innerScan rules envelope ctxBase len' = none :=
        hprev len' hc'.1 hgt'
      exact (innerScan_consistent_iff hc'.1 hc'.2.1).mp hnone i' hc'
  · rintro ⟨len, i, hc, hr, hmin⟩
    obtain ⟨hcmin, hcmax, hc3, hc4, hc5, hc6⟩ := hc
    refine ⟨len, hcmin, by omega, ?_, ?_⟩
    · rw [innerScan_eq_some_iff]
      refine ⟨i, hc3, hc4, hc5, hc6, hr, fun j hj hcj => ?_⟩
      have hcons : consistentPair rules envelope ctxBase len j :=
        ⟨hcmin, hcmax, hc3, by omega, hcj.1, hcj.2⟩
      rcases hmin len j hcons with h | ⟨-, h⟩
      · omega
      · omega
    · intro len'' hge'' hlt''
      rw [innerScan_consistent_iff (by omega) (by omega)]
      intro i'' hc''
      have hcmax'' := hc''.2.1
      rcases hmin len'' i'' hc'' with h | ⟨h, -⟩ <;> omega

/-! ## Normalization projections -/

theorem normalize_preExtract {α : Type} [DecidableEq α] (rules : FiseRules α) :
    (normalizeFiseRules rules).preExtractLength = preExtractLength rules := rfl

theorem normalize_offset {α : Type} [DecidableEq α] (rules : FiseRules α) :
    (normalizeFiseRules rules).offset = rules.offset := rfl

theorem normalize_encodeLength {α : Type} [DecidableEq α] (rules : FiseRules α) :
    (normalizeFiseRules rules).encodeLength = rules.encodeLength := rfl

theorem normalize_extractSalt {α : Type} [DecidableEq α] (rules : FiseRules α) :
    (normalizeFiseRules rules).extractSalt = extractSaltOf rules := rfl

theorem normalize_size {α : Type} [DecidableEq α] (rules : FiseRules α) :
    (normalizeFiseRules rules).encodedLengthSize = encodedLengthSizeOf rules := rfl

theorem stripSaltOf_default {α : Type} {rules : FiseRules α}
    (h : rules.stripSalt = none) : stripSaltOf rules = defaultStripSalt := by
  rw [stripSaltOf, h]
  rfl

theorem extractSaltOf_default {α : Type} {rules : FiseRules α}
    (h : rules.extractSalt = none) : extractSaltOf rules = defaultExtractSalt := by
  rw [extractSaltOf, h]
  rfl

theorem saltRangeOf_default {α : Type} {rules : FiseRules α}
    (h : rules.saltRange = none) : saltRangeOf rules = ⟨10, 99⟩ := by
  rw [saltRangeOf, h]
  rfl

/-! ## The round trip under a zero offset -/

/-- With the optional fields defaulted and an offset function that is
identically zero in the relevant contexts, the search on an assembled
envelope `tok ++ C ++ salt` finds exactly the true salt length with the
token at position 0. -/
theorem zero_offset_preExtract {α : Type} [DecidableEq α]
    (rules : FiseRules α) (ts : Option Int) (md : Option Int)
    (tok C salt : List α) (saltLen : Nat)
    (hRange : rules.saltRange = none) (hStrip : rules.stripSalt = none)
    (hOff : ∀ ct sl, rules.offset ct ⟨ts, sl, md⟩ = 0)
    (h10 : 10 ≤ saltLen) (h99 : saltLen ≤ 99)
    (hSaltLen : salt.length = saltLen)
    (hTokLen : tok.length = encodedLengthSizeOf rules)
    (hDecode : rules.decodeLength tok ⟨ts, none, md⟩ = some (saltLen : Int)) :
    preExtractLength rules ((tok ++ C) ++ salt) ⟨ts, none, md⟩ =
      some ⟨saltLen, tok, tok ++ C⟩ := by
  have hsr := saltRangeOf_default hRange
  have hstrip := stripSaltOf_default hStrip
  set env : List α := (tok ++ C) ++ salt with hEnvDef
  have hEnvLen : env.length = tok.length + C.length + saltLen := by
    simp [hEnvDef, hSaltLen]
    omega
  have hws : ∀ len : Nat, len ≤ saltLen →
      wsAt rules env ⟨ts, none, md⟩ len = env.take (env.length - len) := by
    intro len hlen
    rw [wsAt, hstrip, defaultStripSalt_eq_take _ _ _ (by omega)]
  have hwsTop : wsAt rules env ⟨ts, none, md⟩ saltLen = tok ++ C := by
    rw [hws saltLen (le_refl _), hEnvLen]
    have : tok.length + C.length + saltLen - saltLen = tok.length + C.length := by
      omega
    rw [this]
    exact take_append_left (tok ++ C) salt (by simp)
  rw [preExtractLength_eq_findSome, hsr]
  rw [findSome?_range'_first (99 + 1 - 10) 10]
  refine ⟨saltLen, h10, by omega, ?_, ?_⟩
  · rw [innerScan_eq_some_iff]
    have htok0 : tokenAt rules env ⟨ts, none, md⟩ saltLen 0 = tok := by
      rw [tokenAt, hwsTop]
      rw [show (0 : Nat) + encodedLengthSizeOf rules =
        encodedLengthSizeOf rules from by omega]
      rw [sliceN_zero]
      exact take_append_left tok C hTokLen
    have hcand0 : candidateAt rules env ⟨ts, none, md⟩ saltLen 0 = C := by
      rw [candidateAt, hwsTop, sliceN_zero_zero]
      rw [show (0 : Nat) + encodedLengthSizeOf rules =
        encodedLengthSizeOf rules from by omega]
      rw [drop_append_left tok C hTokLen]
      simp
    refine ⟨0, ?_, ?_, ?_, ?_, ?_, ?_⟩
    · rw [hwsTop]
      simp
      omega
    · rw [hwsTop]
      simp
      omega
    · rw [htok0, hDecode]
    · rw [hcand0, hOff]
      simp
    · rw [htok0, hwsTop]
    · intro j hj
      omega
  · intro len hge hlt
    rw [innerScan_eq_none_iff]
    rintro i ⟨hsz, hpos, hdec, hoff⟩
    by_cases hi : i = 0
    · subst hi
      have htok : tokenAt rules env ⟨ts, none, md⟩ len 0 = tok := by
        rw [tokenAt, hws len (by omega)]
        rw [show (0 : Nat) + encodedLengthSizeOf rules =
          encodedLengthSizeOf rules from by omega]
        rw [sliceN_zero, List.take_take]
        have hmin : min (encodedLengthSizeOf rules) (env.length - len) =
            encodedLengthSizeOf rules := by
          rw [hEnvLen]
          omega
        rw [hmin, hEnvDef, List.append_assoc]
        exact take_append_left tok (C ++ salt) hTokLen
      rw [htok, hDecode] at hdec
      rw [Option.some.injEq] at hdec
      have : len = saltLen := by exact_mod_cast hdec.symm
      omega
    · rw [hOff] at hoff
      have : (i : Int) = 0 := hoff.symm
      omega

/-- Round trip of the assembler and resolver for any rule set whose offset is
identically zero in the relevant contexts (in particular the default rule
family whenever `timestamp % 11 == 0`, e.g. with no timestamp at all),
whose optional fields are defaulted, and whose length codec inverts at the
drawn salt length. -/
theorem zero_offset_roundtrip {α : Type} [DecidableEq α] (dummy : α)
    (rules : FiseRules α) (cipher : FiseCipher α) (payload salt : List α)
    (saltLen : Nat) (ts : Option Int) (md : Option Int)
    (hRange : rules.saltRange = none) (hStrip : rules.stripSalt = none)
    (hExtract : rules.extractSalt = none)
    (hOff : ∀ ct sl, rules.offset ct ⟨ts, sl, md⟩ = 0)
    (h10 : 10 ≤ saltLen) (h99 : saltLen ≤ 99)
    (hSaltLen : salt.length = saltLen)
    (hTokLen : (rules.encodeLength saltLen ⟨ts, some saltLen, md⟩).length =
      encodedLengthSizeOf rules)
    (hDecode : rules.decodeLength
      (rules.encodeLength saltLen ⟨ts, some saltLen, md⟩) ⟨ts, none, md⟩ =
      some (saltLen : Int)) :
    decryptFiseG dummy
        (encryptFiseG payload cipher rules ⟨ts, md⟩ saltLen salt)
        cipher rules ⟨ts, md⟩ =
      .ok (cipher.decrypt (cipher.encrypt payload salt) salt) := by
  set C : List α := cipher.encrypt payload salt with hC
  set tok : List α := rules.encodeLength saltLen ⟨ts, some saltLen, md⟩
    with hTok
  have hEnv : encryptFiseG payload cipher rules ⟨ts, md⟩ saltLen salt =
      (tok ++ C) ++ salt := by
    show (C.take (jsClamp (rules.offset C ⟨ts, some saltLen, md⟩) C.length) ++
      tok ++ C.drop (jsClamp (rules.offset C ⟨ts, some saltLen, md⟩)
        C.length)) ++ salt = (tok ++ C) ++ salt
    rw [hOff C (some saltLen), jsClamp_zero]
    simp
  rw [hEnv]
  have hPre := zero_offset_preExtract rules ts md tok C salt saltLen hRange
    hStrip hOff h10 h99 hSaltLen hTokLen hDecode
  have hTC : (tok ++ C).length = encodedLengthSizeOf rules + C.length := by
    simp [hTokLen]
  have hSalt : extractSaltOf rules ((tok ++ C) ++ salt) saltLen
      ⟨ts, some saltLen, md⟩ = salt := by
    rw [extractSaltOf_default hExtract,
      defaultExtractSalt_eq_drop _ _ _ (by omega)
        (by simp [hSaltLen]; omega)]
    have h1 : ((tok ++ C) ++ salt).length - saltLen = (tok ++ C).length := by
      simp [hSaltLen]
      omega
    rw [h1]
    exact drop_append_left (tok ++ C) salt rfl
  simp only [decryptFiseG, normalize_preExtract, normalize_extractSalt,
    normalize_offset, normalize_size, hPre]
  rw [hSalt]
  rw [hOff]
  have hPos : (max 0 (min (0 : Int)
      (((tok ++ C).length : Int) - (encodedLengthSizeOf rules : Int)))).toNat
      = 0 := by
    omega
  rw [hPos]
  have hCond : ¬ (0 + encodedLengthSizeOf rules > (tok ++ C).length ∨
      sliceN (tok ++ C) 0 (0 + encodedLengthSizeOf rules) ≠ tok) := by
    push_neg
    constructor
    · omega
    · rw [show (0 : Nat) + encodedLengthSizeOf rules =
        encodedLengthSizeOf rules from by omega, sliceN_zero]
      exact take_append_left tok C hTokLen
  rw [if_neg hCond]
  rw [sliceN_zero_zero]
  rw [show (0 : Nat) + encodedLengthSizeOf rules =
    encodedLengthSizeOf rules from by omega]
  rw [drop_append_left tok C hTokLen]
  simp

/-! ## XOR cipher facts -/

theorem xorFold_length (m : Nat) (p s : List Nat) :
    (xorFold m p s).length = p.length := by
  simp [xorFold]

theorem xorFold_getElem (m : Nat) (p s : List Nat) (i : Nat)
    (h : i < (xorFold m p s).length) :
    (xorFold m p s)[i] =
      (p.getD i 0 ^^^ s.getD (i % s.length) 0) % m := by
  have hp : i < p.length := by
    rw [xorFold_length] at h
    exact h
  simp [xorFold]

theorem xorFold_involution (k : Nat) (p s : List Nat)
    (hp : ∀ b ∈ p, b < 2 ^ k) (hs : ∀ b ∈ s, b < 2 ^ k) :
    xorFold (2 ^ k) (xorFold (2 ^ k) p s) s = p := by
  apply List.ext_getElem
  · rw [xorFold_length, xorFold_length]
  · intro i h1 h2
    have hip : i < p.length := h2
    have hpow : 0 < 2 ^ k := Nat.pos_pow_of_pos k (by omega)
    have hsj : s.getD (i % s.length) 0 < 2 ^ k := by
      cases hcase : s with
      | nil => exact hpow
      | cons a t =>
        rw [← hcase]
        have hlen : 0 < s.length := by rw [hcase]; simp
        have hmem : i % s.length < s.length := Nat.mod_lt i hlen
        rw [List.getD_eq_getElem s 0 hmem]
        exact hs _ (List.getElem_mem hmem)
    have hin : i < (xorFold (2 ^ k) p s).length := by
      rw [xorFold_length]
      exact hip
    rw [xorFold_getElem _ _ _ _ h1]
    rw [List.getD_eq_getElem _ 0 hin, xorFold_getElem _ _ _ _ hin]
    have hpi : p.getD i 0 = p[i] := List.getD_eq_getElem p 0 hip
    rw [hpi]
    have hpb : p[i] < 2 ^ k := hp _ (List.getElem_mem hip)
    have hxor : p[i] ^^^ s.getD (i % s.length) 0 < 2 ^ k :=
      Nat.xor_lt_two_pow hpb hsj
    rw [Nat.mod_eq_of_lt hxor]
    rw [Nat.xor_assoc, Nat.xor_self, Nat.xor_zero]
    exact Nat.mod_eq_of_lt hpb

theorem xorBinaryCipher_roundtrip (p s : List Nat)
    (hp : ∀ b ∈ p, b < 256) (hs : ∀ b ∈ s, b < 256) :
    xorBinaryCipher.decrypt (xorBinaryCipher.encrypt p s) s = p := by
  show xorFold 256 (xorFold 256 p s) s = p
  have h := xorFold_involution 8 p s (by simpa using hp) (by simpa using hs)
  simpa using h

theorem xorCipher_roundtrip (p s : List Nat)
    (hp : ∀ c ∈ p, c < 65536) (hs : ∀ c ∈ s, c < 65536) :
    xorCipher.decrypt (xorCipher.encrypt p s) s = p := by
  show xorFold 65536 (xorFold 65536 p s) s = p
  have h := xorFold_involution 16 p s (by simpa using hp) (by simpa using hs)
  simpa using h

/-! ## Codec facts for the shipped rule sets -/

theorem defaultRules_codec : ∀ n < 100, 10 ≤ n →
    (defaultRules.encodeLength n emptyCtx).length = 2 ∧
    defaultRules.decodeLength (defaultRules.encodeLength n emptyCtx)
      emptyCtx = some (n : Int) := by decide

theorem defaultBinaryRules_codec : ∀ n < 100, 10 ≤ n →
    (defaultBinaryRules.encodeLength n emptyCtx).length = 2 ∧
    defaultBinaryRules.decodeLength
      (defaultBinaryRules.encodeLength n emptyCtx) emptyCtx =
      some (n : Int) := by decide

theorem defaultRules_encodeLength_ctx (n : Nat) (ctx : FiseContext) :
    defaultRules.encodeLength n ctx = defaultRules.encodeLength n emptyCtx :=
  rfl

theorem defaultRules_decodeLength_ctx (l : List Nat) (ctx : FiseContext) :
    defaultRules.decodeLength l ctx = defaultRules.decodeLength l emptyCtx :=
  rfl

theorem defaultBinaryRules_encodeLength_ctx (n : Nat) (ctx : FiseContext) :
    defaultBinaryRules.encodeLength n ctx =
      defaultBinaryRules.encodeLength n emptyCtx := rfl

theorem defaultBinaryRules_decodeLength_ctx (l : List Nat) (ctx : FiseContext) :
    defaultBinaryRules.decodeLength l ctx =
      defaultBinaryRules.decodeLength l emptyCtx := rfl

theorem encodedLengthSizeOf_defaultRules :
    encodedLengthSizeOf defaultRules = 2 := by decide

theorem encodedLengthSizeOf_defaultBinaryRules :
    encodedLengthSizeOf defaultBinaryRules = 2 := rfl

/-! ## Claim C1 -/

/-- C1 (counterexample): the round trip does not hold for every payload,
timestamp and salt drawn from the random source.  With the default binary
rules, the XOR cipher, timestamp 2 at both ends, payload `[97, 107]`
(`"ak"`), and the drawable salt `"aaaaaaaaaaa"` (length 11 in the salt
range), the resolver's brute-force search accepts the spurious pair
`(saltLen = 10, i = 2)` before reaching the true pair `(11, 0)` and
returns `[97, 106, 0]` instead of the payload. -/
theorem C1_counterexample :
    fiseBinaryDecrypt
        (fiseBinaryEncrypt [97, 107] xorBinaryCipher defaultBinaryRules
          { timestamp := some 2 } 11 (List.replicate 11 97))
        xorBinaryCipher defaultBinaryRules { timestamp := some 2 } =
      .ok [97, 106, 0] ∧
    ([97, 106, 0] : List Nat) ≠ [97, 107] ∧
    (10 : Nat) ≤ 11 ∧ (11 : Nat) ≤ 99 ∧
    (List.replicate 11 97).length = 11 := by decide

/-- C1 (amended): for the default rule family and XOR cipher, the round
trip `resolve (assemble payload) = payload` holds for every payload, every
salt length in the salt range and every salt value, in both string and
binary modes, whenever the shared timestamp `t` satisfies `t % 11 == 0` —
in particular for the default (absent) timestamp.  (For other timestamp
residues the brute-force search can accept a spurious earlier pair, as the
counterexample shows.) -/
theorem C1_amended_roundtrip (payload salt : List Nat) (saltLen : Nat)
    (ts : Option Int) (md : Option Int)
    (h10 : 10 ≤ saltLen) (h99 : saltLen ≤ 99)
    (hLen : salt.length = saltLen)
    (hts : jsRem (ts.getD 0) 11 = 0) :
    ((∀ c ∈ payload, c < 65536) → (∀ c ∈ salt, c < 65536) →
      decryptFise
          (encryptFise payload xorCipher defaultRules ⟨ts, md⟩ saltLen salt)
          xorCipher defaultRules ⟨ts, md⟩ = .ok payload) ∧
    ((∀ b ∈ payload, b < 256) → (∀ b ∈ salt, b < 256) →
      fiseBinaryDecrypt
          (fiseBinaryEncrypt payload xorBinaryCipher defaultBinaryRules
            ⟨ts, md⟩ saltLen salt)
          xorBinaryCipher defaultBinaryRules ⟨ts, md⟩ = .ok payload) := by
  constructor
  · intro hp hs
    show decryptFiseG DUMMY_CHAR
      (encryptFiseG payload xorCipher defaultRules ⟨ts, md⟩ saltLen salt)
      xorCipher defaultRules ⟨ts, md⟩ = .ok payload
    rw [zero_offset_roundtrip DUMMY_CHAR defaultRules xorCipher payload salt
      saltLen ts md rfl rfl rfl
      (fun ct sl => defaultOffsetFn_zero hts) h10 h99 hLen
      (by
        rw [defaultRules_encodeLength_ctx, encodedLengthSizeOf_defaultRules]
        exact (defaultRules_codec saltLen (by omega) h10).1)
      (by
        rw [defaultRules_encodeLength_ctx, defaultRules_decodeLength_ctx]
        exact (defaultRules_codec saltLen (by omega) h10).2)]
    rw [xorCipher_roundtrip payload salt hp hs]
  · intro hp hs
    show decryptFiseG 0
      (encryptFiseG payload xorBinaryCipher defaultBinaryRules ⟨ts, md⟩
        saltLen salt)
      xorBinaryCipher defaultBinaryRules ⟨ts, md⟩ = .ok payload
    rw [zero_offset_roundtrip 0 defaultBinaryRules xorBinaryCipher payload
      salt saltLen ts md rfl rfl rfl
      (fun ct sl => defaultOffsetFn_zero hts) h10 h99 hLen
      (by
        rw [defaultBinaryRules_encodeLength_ctx,
          encodedLengthSizeOf_defaultBinaryRules]
        exact (defaultBinaryRules_codec saltLen (by omega) h10).1)
      (by
        rw [defaultBinaryRules_encodeLength_ctx,
          defaultBinaryRules_decodeLength_ctx]
        exact (defaultBinaryRules_codec saltLen (by omega) h10).2)]
    rw [xorBinaryCipher_roundtrip payload salt hp hs]

/-- C1 (witness): the amended round trip evaluated at payload `[72, 105]`
(`"Hi"`), salt `"aaaaaaaaaa"`, salt length 10, no timestamp. -/
theorem C1_amended_roundtrip_witness :
    (10 ≤ 10 ∧ (10 : Nat) ≤ 99 ∧ (List.replicate 10 97).length = 10 ∧
      jsRem ((none : Option Int).getD 0) 11 = 0) ∧
    decryptFise
        (encryptFise [72, 105] xorCipher defaultRules ⟨none, none⟩ 10
          (List.replicate 10 97))
        xorCipher defaultRules ⟨none, none⟩ = .ok [72, 105] ∧
    fiseBinaryDecrypt
        (fiseBinaryEncrypt [72, 105] xorBinaryCipher defaultBinaryRules
          ⟨none, none⟩ 10 (List.replicate 10 97))
        xorBinaryCipher defaultBinaryRules ⟨none, none⟩ = .ok [72, 105] :=
  ⟨⟨by decide, by decide, by decide, by decide⟩,
    (C1_amended_roundtrip [72, 105] (List.replicate 10 97) 10 none none
      (by decide) (by decide) (by decide) (by decide)).1
      (by decide) (by decide),
    (C1_amended_roundtrip [72, 105] (List.replicate 10 97) 10 none none
      (by decide) (by decide) (by decide) (by decide)).2
      (by decide) (by decide)⟩

/-! ## Claim C3 -/

/-- C3 (counterexample): `normalizeFiseRules` probes `encodeLength` with the
literal `10`, not with `saltRange.min`.  For a rule set with
`saltRange = {20, 30}` and an `encodeLength` of width `len`, the cached
size is 10 while `len(rules.encodeLength(saltRange.min, {}))` is 20. -/
theorem C3_counterexample :
    (normalizeFiseRules c3Rules).encodedLengthSize = 10 ∧
    (c3Rules.encodeLength (saltRangeOf c3Rules).min emptyCtx).length = 20 ∧
    (normalizeFiseRules c3Rules).encodedLengthSize ≠
      (c3Rules.encodeLength (saltRangeOf c3Rules).min emptyCtx).length := by
  decide

/-- C3 (amended): for every rule set, the normalizer computes the cached
`encodedLengthSize` by invoking `encodeLength` with the literal value 10
(which coincides with the default range minimum) and an empty context:
`normalizeFiseRules(rules).encodedLengthSize ==
len(rules.encodeLength(10, {}))`, also when a custom `saltRange` has a
different minimum. -/
theorem C3_amended_size_probe {α : Type} [DecidableEq α]
    (rules : FiseRules α) :
    (normalizeFiseRules rules).encodedLengthSize =
      (rules.encodeLength 10 emptyCtx).length := rfl

/-! ## Claim C9 -/

/-- C9 (counterexample): at `k = 0` the default pair is not a partition.
JS `slice(-0)` is `slice(0)`, so `extractSalt(e, 0)` returns the whole
envelope rather than its last 0 elements, and `stripSalt ++ extractSalt`
duplicates the envelope. -/
theorem C9_counterexample :
    defaultStripSalt [5] 0 emptyCtx ++ defaultExtractSalt [5] 0 emptyCtx =
      [5, 5] ∧
    defaultStripSalt [5] 0 emptyCtx ++ defaultExtractSalt [5] 0 emptyCtx ≠
      ([5] : List Nat) ∧
    (0 : Nat) ≤ ([5] : List Nat).length := by decide

/-- C9 (amended): for every envelope and every salt length `k` with
`1 ≤ k ≤ len(e)`, the default tail-based extraction is an exact partition:
`stripSalt` returns the first `len(e) - k` elements, `extractSalt` the last
`k`, and their concatenation is the envelope (at `k = 0` JS `slice(-0)`
instead returns the whole envelope, see the counterexample). -/
theorem C9_amended_partition {α : Type} (e : List α) (k : Nat)
    (ctx : FiseContext) (h1 : 1 ≤ k) (h2 : k ≤ e.length) :
    defaultStripSalt e k ctx = e.take (e.length - k) ∧
    defaultExtractSalt e k ctx = e.drop (e.length - k) ∧
    defaultStripSalt e k ctx ++ defaultExtractSalt e k ctx = e := by
  refine ⟨defaultStripSalt_eq_take e k ctx h2,
    defaultExtractSalt_eq_drop e k ctx h1 h2, ?_⟩
  rw [defaultStripSalt_eq_take e k ctx h2,
    defaultExtractSalt_eq_drop e k ctx h1 h2]
  exact List.take_append_drop _ e

/-- C9 (witness): the amended partition at `e = [1, 2, 3]`, `k = 2`. -/
theorem C9_amended_partition_witness :
    ((1 : Nat) ≤ 2 ∧ 2 ≤ ([1, 2, 3] : List Nat).length) ∧
    defaultStripSalt [1, 2, 3] 2 emptyCtx = [1] ∧
    defaultExtractSalt [1, 2, 3] 2 emptyCtx = [2, 3] ∧
    defaultStripSalt [1, 2, 3] 2 emptyCtx ++
      defaultExtractSalt [1, 2, 3] 2 emptyCtx = [1, 2, 3] := by
  refine ⟨⟨by decide, by decide⟩, ?_⟩
  have h := C9_amended_partition ([1, 2, 3] : List Nat) 2 emptyCtx
    (by decide) (by decide)
  simpa using h

/-! ## Claim C7 -/

theorem jsClamp_le (x : Int) (n : Nat) : jsClamp x n ≤ n := by
  simp only [jsClamp]
  omega

/-- C7: in both the string and the binary assembler, the offset actually
used to splice the encoded-length token is the raw rule offset clamped into
`[0, len(cipherText)]` (`Math.max(0, Math.min(raw, len))`), so it never
exceeds the cipher-text length even for negative or oversized raw offsets,
and the envelope is exactly
`cipherText[0:offset] ++ encodedLen ++ cipherText[offset:] ++ salt`. -/
theorem C7_assembler_clamps (payload : List Nat) (cipher : FiseCipher Nat)
    (rules : FiseRules Nat) (options : EncryptOptions) (saltLen : Nat)
    (salt : List Nat) :
    jsClamp
        (rules.offset (cipher.encrypt payload salt)
          ⟨options.timestamp, some saltLen, options.metadata⟩)
        (cipher.encrypt payload salt).length ≤
      (cipher.encrypt payload salt).length ∧
    encryptFise payload cipher rules options saltLen salt =
      ((cipher.encrypt payload salt).take
          (jsClamp
            (rules.offset (cipher.encrypt payload salt)
              ⟨options.timestamp, some saltLen, options.metadata⟩)
            (cipher.encrypt payload salt).length) ++
        rules.encodeLength saltLen
          ⟨options.timestamp, some saltLen, options.metadata⟩ ++
        (cipher.encrypt payload salt).drop
          (jsClamp
            (rules.offset (cipher.encrypt payload salt)
              ⟨options.timestamp, some saltLen, options.metadata⟩)
            (cipher.encrypt payload salt).length)) ++ salt ∧
    fiseBinaryEncrypt payload cipher rules options saltLen salt =
      encryptFise payload cipher rules options saltLen salt :=
  ⟨jsClamp_le _ _, rfl, rfl⟩

/-! ## Claims C4 and C5 -/

/-- C4: `preExtractLength` returns a result exactly when some pair
`(saltLen, i)` in the searched rectangle passes both the length-decode
check and the offset-recomputation check, and the returned record is built
from the lexicographically first such pair — ascending salt length over
`[saltRange.min, saltRange.max]`, then ascending position: its salt length,
the token window at the found position, and the salt-stripped carrier. -/
theorem C4_first_consistent_pair {α : Type} [DecidableEq α]
    (rules : FiseRules α) (envelope : List α) (ctxBase : FiseContext)
    (r : PreExtractResult α) :
    preExtractLength rules envelope ctxBase = some r ↔
      ∃ len i, consistentPair rules envelope ctxBase len i ∧
        r = ⟨len, tokenAt rules envelope ctxBase len i,
          wsAt rules envelope ctxBase len⟩ ∧
        ∀ len' i', consistentPair rules envelope ctxBase len' i' →
          len < len' ∨ (len = len' ∧ i ≤ i') :=
  preExtractLength_eq_some_iff

/-- C5: the pre-extraction search fails with the
`"cannot infer salt length"` inference error exactly when no pair
`(saltLen, i)` over the whole salt range satisfies both the length-decode
check and the offset-recomputation check; there is no internal retry — the
result is a pure function of the exhaustive search. -/
theorem C5_inference_error_iff_exhausted {α : Type} [DecidableEq α]
    (rules : FiseRules α) (envelope : List α) (ctxBase : FiseContext) :
    preExtractLength rules envelope ctxBase = none ↔
      ∀ len i, ¬ consistentPair rules envelope ctxBase len i :=
  preExtractLength_eq_none_iff

/-! ## Claim C10 -/

theorem candidateAt_length {α : Type} (rules : FiseRules α)
    (envelope : List α) (ctxBase : FiseContext) (len i : Nat)
    (h : i + encodedLengthSizeOf rules ≤
      (wsAt rules envelope ctxBase len).length) :
    (candidateAt rules envelope ctxBase len i).length =
      (wsAt rules envelope ctxBase len).length -
        encodedLengthSizeOf rules := by
  unfold candidateAt
  rw [List.length_append, sliceN_zero, List.length_take, List.length_drop]
  omega

/-- C10: encode-time clamping is not mirrored by the search.  For any rule
set whose raw offset always exceeds the cipher-text length, the assembler
still succeeds — the clamp lands the token at the very end, producing
`cipherText ++ encodedLen ++ salt` — but the resolver rejects every
envelope whatsoever with the `"cannot infer salt length"` error, because
the recomputed raw offset is compared unclamped against candidate positions
`i ≤ len(candidate)`. -/
theorem C10_unclamped_search {α : Type} [DecidableEq α] (dummy : α)
    (rules : FiseRules α) (cipher : FiseCipher α) (options : DecryptOptions)
    (h : ∀ ct ctx, ((ct.length : Int) < rules.offset ct ctx)) :
    (∀ envelope, decryptFiseG dummy envelope cipher rules options =
      .error .cannotInferSaltLength) ∧
    (∀ (payload salt : List α) (eopts : EncryptOptions) (saltLen : Nat),
      encryptFiseG payload cipher rules eopts saltLen salt =
        (cipher.encrypt payload salt ++
          rules.encodeLength saltLen
            ⟨eopts.timestamp, some saltLen, eopts.metadata⟩) ++ salt) := by
  constructor
  · intro envelope
    have hnone : preExtractLength rules envelope
        ⟨options.timestamp, none, options.metadata⟩ = none := by
      rw [preExtractLength_eq_none_iff]
      rintro len i ⟨-, -, -, hpos, -, hoff⟩
      have hlen := candidateAt_length rules envelope
        ⟨options.timestamp, none, options.metadata⟩ len i hpos
      have hgt := h (candidateAt rules envelope
        ⟨options.timestamp, none, options.metadata⟩ len i)
        ⟨options.timestamp, some len, options.metadata⟩
      rw [hoff, hlen] at hgt
      have hle : i ≤ (wsAt rules envelope
          ⟨options.timestamp, none, options.metadata⟩ len).length -
          encodedLengthSizeOf rules := by omega
      omega
    simp only [decryptFiseG, normalize_preExtract, hnone]
  · intro payload salt eopts saltLen
    show ((cipher.encrypt payload salt).take
        (jsClamp (rules.offset (cipher.encrypt payload salt)
          ⟨eopts.timestamp, some saltLen, eopts.metadata⟩)
          (cipher.encrypt payload salt).length) ++
      rules.encodeLength saltLen
        ⟨eopts.timestamp, some saltLen, eopts.metadata⟩ ++
      (cipher.encrypt payload salt).drop
        (jsClamp (rules.offset (cipher.encrypt payload salt)
          ⟨eopts.timestamp, some saltLen, eopts.metadata⟩)
          (cipher.encrypt payload salt).length)) ++ salt = _
    rw [jsClamp_of_gt (h (cipher.encrypt payload salt)
      ⟨eopts.timestamp, some saltLen, eopts.metadata⟩)]
    rw [List.take_length, List.drop_length]
    simp

/-- C10 (witness): the unclamped-search rejection evaluated at a concrete
always-oversized rule set: assembly of `[1, 2]` succeeds with the token at
the end, and resolution of a concrete envelope fails with the inference
error. -/
theorem C10_unclamped_search_witness :
    (∀ ct ctx, ((ct.length : Int) < c10Rules.offset ct ctx)) ∧
    decryptFiseG 0 [1, 2, 3] xorBinaryCipher c10Rules {} =
      .error .cannotInferSaltLength ∧
    encryptFiseG [1, 2] xorBinaryCipher c10Rules {} 10
        (List.replicate 10 97) =
      (xorBinaryCipher.encrypt [1, 2] (List.replicate 10 97) ++
        c10Rules.encodeLength 10 ⟨none, some 10, none⟩) ++
        List.replicate 10 97 :=
  ⟨fun ct ctx => by simp [c10Rules],
    (C10_unclamped_search 0 c10Rules xorBinaryCipher {}
      (fun ct ctx => by simp [c10Rules])).1 [1, 2, 3],
    (C10_unclamped_search 0 c10Rules xorBinaryCipher {}
      (fun ct ctx => by simp [c10Rules])).2 [1, 2] (List.replicate 10 97)
      {} 10⟩

/-! ## Claim C6 -/

theorem decryptFiseG_cannotInfer_iff {α : Type} [DecidableEq α] (dummy : α)
    (envelope : List α) (cipher : FiseCipher α) (rules : FiseRules α)
    (options : DecryptOptions) :
    decryptFiseG dummy envelope cipher rules options =
        .error .cannotInferSaltLength ↔
      preExtractLength rules envelope
        ⟨options.timestamp, none, options.metadata⟩ = none := by
  cases hpre : preExtractLength rules envelope
      ⟨options.timestamp, none, options.metadata⟩ with
  | none =>
    simp only [decryptFiseG, normalize_preExtract, hpre]
  | some r =>
    simp only [decryptFiseG, normalize_preExtract, hpre]
    constructor
    · intro h
      split at h <;> simp at h
    · intro h
      simp at h

/-- C6 (counterexample): a mismatched rotation token does not force a
failure, even though the default rules' offset depends on the timestamp.
Assembling `[97, 107]` with timestamp 0 and resolving with timestamp 2
succeeds, returning `[97, 106, 0]` (a wrong payload) rather than throwing. -/
theorem C6_counterexample :
    defaultBinaryRules.offset [0, 0, 0] { timestamp := some 0 } ≠
      defaultBinaryRules.offset [0, 0, 0] { timestamp := some 2 } ∧
    fiseBinaryDecrypt
        (fiseBinaryEncrypt [97, 107] xorBinaryCipher defaultBinaryRules
          { timestamp := some 0 } 11 (List.replicate 11 97))
        xorBinaryCipher defaultBinaryRules { timestamp := some 2 } =
      .ok [97, 106, 0] := by decide

/-- C6 (amended): resolving with a mismatched rotation token or metadata is
not guaranteed to fail merely because the rules read that context field.
What holds is the exact binding condition: the resolver throws the
inference failure if and only if, under the decode-time context, no
structurally consistent `(saltLen, position)` pair exists in the envelope
(so a context mismatch makes `resolve` fail exactly when it destroys every
consistent pair; otherwise `resolve` returns some — possibly wrong —
payload or fails the fast-path token check). -/
theorem C6_amended_context_binding {α : Type} [DecidableEq α] (dummy : α)
    (envelope : List α) (cipher : FiseCipher α) (rules : FiseRules α)
    (options : DecryptOptions) :
    decryptFiseG dummy envelope cipher rules options =
        .error .cannotInferSaltLength ↔
      ∀ len i, ¬ consistentPair rules envelope
        ⟨options.timestamp, none, options.metadata⟩ len i := by
  rw [decryptFiseG_cannotInfer_iff]
  exact preExtractLength_eq_none_iff

/-! ## Claim C8 -/

theorem baseDigitsAux_small {b : Nat} (fuel n : Nat) (hf : 1 ≤ fuel)
    (hn : n < b) : baseDigitsAux b fuel n = [n] := by
  cases fuel with
  | zero => omega
  | succ f => simp [baseDigitsAux, hn]

theorem baseDigits_small {b n : Nat} (hb : 2 ≤ b) (hn : n < b) :
    baseDigits b n = [n] := by
  rw [baseDigits, if_neg (by omega)]
  exact baseDigitsAux_small (n + 1) n (by omega) hn

theorem baseDigits_two {b n : Nat} (hb : 2 ≤ b) (hbn : b ≤ n)
    (hn : n < b * b) : baseDigits b n = [n / b, n % b] := by
  rw [baseDigits, if_neg (by omega)]
  have h1 : ¬ n < b := by omega
  rw [show n + 1 = n + 1 from rfl]
  show baseDigitsAux b (n + 1) n = _
  rw [baseDigitsAux, if_neg h1]
  have hq : n / b < b := by
    exact Nat.div_lt_of_lt_mul hn
  rw [baseDigitsAux_small n (n / b) (by omega) hq]
  rfl

theorem decodeByAlphabet_cons {alphabet : List Nat} {c : Nat}
    {rest : List Nat} {acc : Nat} (h : c ∈ alphabet) :
    decodeByAlphabet alphabet (c :: rest) acc =
      decodeByAlphabet alphabet rest
        (acc * alphabet.length + alphabet.indexOf c) := by
  simp [decodeByAlphabet, h]

/-- Length-codec identity for a `customChars` alphabet of at least 10
pairwise-distinct symbols, over the default salt range. -/
theorem customChars_codec (alphabet : List Nat) (hnd : alphabet.Nodup)
    (hlen : 10 ≤ alphabet.length) (n : Nat) (h10 : 10 ≤ n) (h99 : n ≤ 99) :
    (customCharsRules alphabet).decodeLength
      ((customCharsRules alphabet).encodeLength n emptyCtx) emptyCtx =
      some (n : Int) := by
  have hb : 2 ≤ alphabet.length := by omega
  have hn0 : n ≠ 0 := by omega
  have h0 : 0 < alphabet.length := by omega
  show (decodeByAlphabet alphabet
    (if n = 0 then _ else padStartList ((baseDigits alphabet.length n).map
      (fun d => alphabet.getD d 0)) 2 (alphabet.getD 0 0)) 0).map
      (fun m => (m : Int)) = some (n : Int)
  rw [if_neg hn0]
  by_cases hsmall : n < alphabet.length
  · rw [baseDigits_small hb hsmall]
    show (decodeByAlphabet alphabet
      (padStartList [alphabet.getD n 0] 2 (alphabet.getD 0 0)) 0).map
      (fun m => (m : Int)) = some (n : Int)
    have hpad : padStartList [alphabet.getD n 0] 2 (alphabet.getD 0 0) =
        [alphabet.getD 0 0, alphabet.getD n 0] := rfl
    rw [hpad, List.getD_eq_getElem alphabet 0 h0,
      List.getD_eq_getElem alphabet 0 hsmall]
    rw [decodeByAlphabet_cons (List.getElem_mem _),
      decodeByAlphabet_cons (List.getElem_mem _)]
    rw [List.indexOf_getElem hnd 0 h0, List.indexOf_getElem hnd n hsmall]
    show some ((((0 * alphabet.length + 0) * alphabet.length + n : Nat)) :
      Int) = some (n : Int)
    norm_num
  · push_neg at hsmall
    have hnbb : n < alphabet.length * alphabet.length := by nlinarith
    rw [baseDigits_two hb hsmall hnbb]
    have hq : n / alphabet.length < alphabet.length :=
      Nat.div_lt_of_lt_mul hnbb
    have hr : n % alphabet.length < alphabet.length := Nat.mod_lt n h0
    show (decodeByAlphabet alphabet
      (padStartList [alphabet.getD (n / alphabet.length) 0,
        alphabet.getD (n % alphabet.length) 0] 2 (alphabet.getD 0 0)) 0).map
      (fun m => (m : Int)) = some (n : Int)
    have hpad : padStartList [alphabet.getD (n / alphabet.length) 0,
        alphabet.getD (n % alphabet.length) 0] 2 (alphabet.getD 0 0) =
        [alphabet.getD (n / alphabet.length) 0,
          alphabet.getD (n % alphabet.length) 0] := rfl
    rw [hpad, List.getD_eq_getElem alphabet 0 hq,
      List.getD_eq_getElem alphabet 0 hr]
    rw [decodeByAlphabet_cons (List.getElem_mem _),
      decodeByAlphabet_cons (List.getElem_mem _)]
    rw [List.indexOf_getElem hnd _ hq, List.indexOf_getElem hnd _ hr]
    have harith : (0 * alphabet.length + n / alphabet.length) *
        alphabet.length + n % alphabet.length = n := by
      rw [Nat.zero_mul, Nat.zero_add,
        Nat.mul_comm (n / alphabet.length) alphabet.length]
      exact Nat.div_add_mod n alphabet.length
    show some ((((0 * alphabet.length + n / alphabet.length) *
      alphabet.length + n % alphabet.length : Nat)) : Int) = some (n : Int)
    rw [harith]

set_option maxRecDepth 4000 in
theorem presets_codec : ∀ n < 100, 10 ≤ n →
    (defaultRules.decodeLength (defaultRules.encodeLength n emptyCtx)
      emptyCtx = some (n : Int) ∧
    hexRules.decodeLength (hexRules.encodeLength n emptyCtx) emptyCtx =
      some (n : Int) ∧
    base62Rules.decodeLength (base62Rules.encodeLength n emptyCtx) emptyCtx =
      some (n : Int) ∧
    base64Rules.decodeLength (base64Rules.encodeLength n emptyCtx) emptyCtx =
      some (n : Int)) := by decide

/-- C8 (counterexample): `customChars` only checks that the alphabet has at
least 10 characters, not that they are distinct.  With the 10-symbol
alphabet `"aaaaaaaaab"` the codec identity fails at `n = 11`:
`encodeLength(11)` is `"aa"` (digits 1,1 both render as `'a'`) and
`indexOf` decodes it back to 0. -/
theorem C8_counterexample :
    (List.replicate 9 97 ++ [98]).length = 10 ∧
    (customCharsRules (List.replicate 9 97 ++ [98])).decodeLength
        ((customCharsRules (List.replicate 9 97 ++ [98])).encodeLength 11
          emptyCtx) emptyCtx = some 0 ∧
    (some 0 : Option Int) ≠ some 11 := by decide

/-- C8 (amended): for every `n` in the salt range `[10, 99]`,
`decodeLength(encodeLength(n)) == n` for the default base-36 rules, the hex
preset, the base-62 preset, the base-64-charset preset, and every
`customChars` preset built from an alphabet of at least 10 pairwise
distinct symbols (mere length ≥ 10 is not enough, see the
counterexample). -/
theorem C8_amended_codec_identity (alphabet : List Nat)
    (hnd : alphabet.Nodup) (hlen : 10 ≤ alphabet.length) :
    ∀ n, 10 ≤ n → n ≤ 99 →
      defaultRules.decodeLength (defaultRules.encodeLength n emptyCtx)
          emptyCtx = some (n : Int) ∧
      hexRules.decodeLength (hexRules.encodeLength n emptyCtx) emptyCtx =
        some (n : Int) ∧
      base62Rules.decodeLength (base62Rules.encodeLength n emptyCtx)
          emptyCtx = some (n : Int) ∧
      base64Rules.decodeLength (base64Rules.encodeLength n emptyCtx)
          emptyCtx = some (n : Int) ∧
      (customCharsRules alphabet).decodeLength
          ((customCharsRules alphabet).encodeLength n emptyCtx) emptyCtx =
          some (n : Int) := by
  intro n h10 h99
  obtain ⟨h1, h2, h3, h4⟩ := presets_codec n (by omega) h10
  exact ⟨h1, h2, h3, h4, customChars_codec alphabet hnd hlen n h10 h99⟩

/-- C8 (witness): the amended codec identity at the default `customChars`
alphabet `"!@#$%^&*()"` (ten distinct symbols) and `n = 42`. -/
theorem C8_amended_codec_identity_witness :
    (([33, 64, 35, 36, 37, 94, 38, 42, 40, 41] : List Nat).Nodup ∧
      10 ≤ ([33, 64, 35, 36, 37, 94, 38, 42, 40, 41] : List Nat).length ∧
      (10 : Nat) ≤ 42 ∧ (42 : Nat) ≤ 99) ∧
    ((customCharsRules [33, 64, 35, 36, 37, 94, 38, 42, 40, 41]).decodeLength
        ((customCharsRules [33, 64, 35, 36, 37, 94, 38, 42, 40,
          41]).encodeLength 42 emptyCtx) emptyCtx = some 42 ∧
      defaultRules.decodeLength (defaultRules.encodeLength 42 emptyCtx)
        emptyCtx = some 42) := by
  have h := C8_amended_codec_identity
    [33, 64, 35, 36, 37, 94, 38, 42, 40, 41] (by decide) (by decide)
    42 (by decide) (by decide)
  exact ⟨⟨by decide, by decide, by decide, by decide⟩,
    h.2.2.2.2, h.1⟩

/-! ## Claim C2 -/

theorem findSome?_congr {α β : Type} {f g : α → Option β} :
    ∀ {l : List α}, (∀ a ∈ l, f a = g a) →
      l.findSome? f = l.findSome? g := by
  intro l
  induction l with
  | nil => intro _; rfl
  | cons a t ih =>
    intro h
    rw [List.findSome?_cons, List.findSome?_cons, h a (by simp)]
    cases g a with
    | some v => rfl
    | none => exact ih fun x hx => h x (by simp [hx])

theorem findSome?_eq_apply_of_unique {α β : Type} [DecidableEq α]
    {f : α → Option β} {k : α} :
    ∀ {l : List α}, k ∈ l → (∀ j ∈ l, j ≠ k → f j = none) →
      l.findSome? f = f k := by
  intro l
  induction l with
  | nil => intro h; cases h
  | cons a t ih =>
    intro hk hothers
    rw [List.findSome?_cons]
    by_cases ha : a = k
    · subst ha
      cases hfa : f a with
      | some v => rfl
      | none =>
        apply findSome?_all_none
        intro j hj
        by_cases hja : j = a
        · rw [hja]
          exact hfa
        · exact hothers j (by simp [hj]) hja
    · rw [hothers a (by simp) ha]
      have hkt : k ∈ t := by
        cases hk with
        | head => exact absurd rfl ha
        | tail _ h => exact h
      exact ih hkt fun j hj hne => hothers j (by simp [hj]) hne

theorem innerScan_unfold {α : Type} [DecidableEq α] (rules : FiseRules α)
    (envelope : List α) (ctxBase : FiseContext) (len : Nat) :
    innerScan rules envelope ctxBase len =
      if (stripSaltOf rules envelope len ctxBase).length <
          encodedLengthSizeOf rules then none
      else
        (List.range ((stripSaltOf rules envelope len ctxBase).length -
          encodedLengthSizeOf rules + 1)).findSome? fun i =>
          scanPosition rules (stripSaltOf rules envelope len ctxBase)
            ctxBase len i := rfl

theorem scanPosition_decode_none {α : Type} [DecidableEq α]
    {rules : FiseRules α} {ws : List α} {ctxBase : FiseContext} {len i : Nat}
    (hdec : rules.decodeLength (sliceN ws i (i + encodedLengthSizeOf rules))
      ctxBase = none) :
    scanPosition rules ws ctxBase len i = none := by
  unfold scanPosition
  rw [hdec]

theorem scanPosition_decode_some {α : Type} [DecidableEq α]
    {rules : FiseRules α} {ws : List α} {ctxBase : FiseContext} {len i : Nat}
    {d : Int}
    (hdec : rules.decodeLength (sliceN ws i (i + encodedLengthSizeOf rules))
      ctxBase = some d) :
    scanPosition rules ws ctxBase len i =
      if d = (len : Int) then
        if rules.offset (sliceN ws 0 i ++
            ws.drop (i + encodedLengthSizeOf rules))
            { ctxBase with saltLength := some len } = (i : Int) then
          some ⟨len, sliceN ws i (i + encodedLengthSizeOf rules), ws⟩
        else none
      else none := by
  unfold scanPosition
  rw [hdec]

/-- For a rule set whose offset depends only on the length of its sequence
argument and always lands inside `[0, max 1 len)` — as the default rule
family does — the spec's fast path and the brute-force search agree on
every envelope and context. -/
theorem fastPath_eq_bruteForce {α : Type} [DecidableEq α] (dummy : α)
    (rules : FiseRules α) (envelope : List α) (ctxBase : FiseContext)
    (hlen : ∀ (l1 l2 : List α) (ctx : FiseContext), l1.length = l2.length →
      rules.offset l1 ctx = rules.offset l2 ctx)
    (hbnd : ∀ (l : List α) (ctx : FiseContext), 0 ≤ rules.offset l ctx ∧
      rules.offset l ctx <
        ((if l.length = 0 then 1 else l.length : Nat) : Int)) :
    fastPathPreExtract dummy rules envelope ctxBase =
      preExtractLength rules envelope ctxBase := by
  rw [preExtractLength_eq_findSome]
  unfold fastPathPreExtract
  apply findSome?_congr
  intro len _hmem
  rw [innerScan_unfold]
  generalize hW : stripSaltOf rules envelope len ctxBase = W
  by_cases hguard : W.length < encodedLengthSizeOf rules
  · rw [if_pos hguard, if_pos hguard]
  · rw [if_neg hguard, if_neg hguard]
    push_neg at hguard
    have hbo := hbnd
      (List.replicate (W.length - encodedLengthSizeOf rules) dummy)
      { ctxBase with saltLength := some len }
    rw [List.length_replicate] at hbo
    generalize hO : rules.offset
      (List.replicate (W.length - encodedLengthSizeOf rules) dummy)
      { ctxBase with saltLength := some len } = o at hbo ⊢
    have ho1 : 0 ≤ o := hbo.1
    have ho2 : o.toNat ≤ W.length - encodedLengthSizeOf rules := by
      rcases hbo with ⟨h1, h2⟩
      by_cases hc : W.length - encodedLengthSizeOf rules = 0
      · rw [if_pos hc] at h2
        omega
      · rw [if_neg hc] at h2
        omega
    have hcandoff : ∀ j : Nat, j ≤ W.length - encodedLengthSizeOf rules →
        rules.offset (sliceN W 0 j ++
          W.drop (j + encodedLengthSizeOf rules))
          { ctxBase with saltLength := some len } = o := by
      intro j hj
      rw [← hO]
      apply hlen
      rw [List.length_append, sliceN_zero, List.length_take,
        List.length_drop, List.length_replicate]
      omega
    rw [if_pos ⟨ho1, by omega⟩]
    have hsame : (List.range (W.length - encodedLengthSizeOf rules + 1)).findSome?
        (fun i => scanPosition rules W ctxBase len i) =
        scanPosition rules W ctxBase len o.toNat := by
      apply findSome?_eq_apply_of_unique
      · rw [List.mem_range]
        omega
      · intro j hjmem hjne
        rw [List.mem_range] at hjmem
        cases hdec : rules.decodeLength
            (sliceN W j (j + encodedLengthSizeOf rules)) ctxBase with
        | none => exact scanPosition_decode_none hdec
        | some d =>
          rw [scanPosition_decode_some hdec]
          by_cases hd : d = (len : Int)
          · rw [if_pos hd]
            rw [hcandoff j (by omega)]
            rw [if_neg (by omega)]
          · rw [if_neg hd]
    rw [hsame]
    cases hdec : rules.decodeLength
        (sliceN W (o.toNat) (o.toNat + encodedLengthSizeOf rules))
        ctxBase with
    | none =>
      rw [scanPosition_decode_none hdec]
    | some d =>
      rw [scanPosition_decode_some hdec, hcandoff o.toNat ho2,
        if_pos (show o = ((o.toNat : Nat) : Int) by omega)]

/-- C2: on the decode path with the shipped default rule family (string and
binary), whose offset depends only on content length, the fast path — one
expected-offset computation per salt-length guess from a placeholder
sequence of the candidate cipher-text length, with a single token
verification — returns exactly the same result as the O(range × length)
brute-force double-loop search, on every envelope and in every context.
(Which of the two an implementation executes is a cost property that the
extensional embedding does not distinguish; the shipped `decryptFise` in
fact derives the salt length from the brute-force `preExtractLength` and
then locates the token by the fast-path computation.) -/
theorem C2_fast_path_equivalence (envelope : List Nat)
    (ctxBase : FiseContext) :
    fastPathPreExtract DUMMY_CHAR defaultRules envelope ctxBase =
      preExtractLength defaultRules envelope ctxBase ∧
    fastPathPreExtract 0 defaultBinaryRules envelope ctxBase =
      preExtractLength defaultBinaryRules envelope ctxBase :=
  ⟨fastPath_eq_bruteForce DUMMY_CHAR defaultRules envelope ctxBase
      (fun _l1 _l2 _ctx h => defaultOffsetFn_length_only h)
      (fun l ctx => defaultOffsetFn_bounds l ctx),
    fastPath_eq_bruteForce 0 defaultBinaryRules envelope ctxBase
      (fun _l1 _l2 _ctx h => defaultOffsetFn_length_only h)
      (fun l ctx => defaultOffsetFn_bounds l ctx)⟩
